import Mathlib

/-!
Verification of the POSCAR parsing/writing library (`src/parse.rs`, `src/write.rs`).

The parser is shallowly embedded over `List Char` lines (the Rust code reads
lines with terminators stripped).  Machine floating-point values (`f64`) are
modelled by `FVal`: finite values are exact rationals (every binary64 value is
a dyadic rational, hence has a finite decimal expansion), plus `nan`, `inf`,
`neginf`.  Number parsing follows Rust's `f64::from_str` grammar, computing
the exact rational value of the literal; the `dtoa` shortest-round-trip
printer is modelled by an exact decimal printer `dtoaQ`, so that the defining
property of `dtoa` (printed text re-parses to the same value) holds exactly.
Fallible operations return `Except PErr` / `Option`.
-/

namespace Poscar

/-- Byte class from `is_ascii_whitespace` in parse.rs (space, tab, CR, LF). -/
def isWs (c : Char) : Bool :=
  c = ' ' || c = '\t' || c = '\r' || c = '\n'

/-- ASCII digit test, as the byte ranges b'0'..=b'9' used in parse.rs. -/
def isDigitC (c : Char) : Bool :=
  48 ≤ c.toNat && c.toNat ≤ 57

/-- ASCII lower-casing of a single character (used for the case-insensitive
float keywords `inf` / `infinity` / `nan` of Rust's float grammar). -/
def lowerC (c : Char) : Char :=
  if 65 ≤ c.toNat ∧ c.toNat ≤ 90 then Char.ofNat (c.toNat + 32) else c

/-- `length (dropWhile p l) ≤ length l`. -/
theorem length_dropWhile_le {α : Type} (p : α → Bool) (l : List α) :
    (l.dropWhile p).length ≤ l.length := by
  induction l with
  | nil => simp [List.dropWhile]
  | cons a l ih =>
    by_cases h : p a
    · simpa [List.dropWhile, h] using Nat.le_succ_of_le ih
    · simp [List.dropWhile, h]

/-- Accumulator for the whitespace tokenizer: the optional `(start, chars)`
of the word currently being read (chars reversed). -/
def splitWordsAux : List Char → ℕ → Option (ℕ × List Char) → List (ℕ × List Char)
  | [], _, none => []
  | [], _, some (j, acc) => [(j, acc.reverse)]
  | c :: cs, i, none =>
    if isWs c then splitWordsAux cs (i + 1) none
    else splitWordsAux cs (i + 1) (some (i, [c]))
  | c :: cs, i, some (j, acc) =>
    if isWs c then (j, acc.reverse) :: splitWordsAux cs (i + 1) none
    else splitWordsAux cs (i + 1) (some (j, c :: acc))

/-- The whitespace tokenizer of `Spanned::words` in parse.rs: maximal runs of
non-whitespace characters, each with its starting column.  `i` is the column
of the first character of the list. -/
def splitWords (i : Nat) (l : List Char) : List (Nat × List Char) :=
  splitWordsAux l i none

@[simp] theorem splitWords_nil (i : Nat) : splitWords i [] = [] := rfl

theorem splitWords_ws_cons (i : Nat) (c : Char) (cs : List Char)
    (h : isWs c = true) : splitWords i (c :: cs) = splitWords (i + 1) cs := by
  simp [splitWords, splitWordsAux, h]

theorem splitWords_ws_append (pre : List Char) (h : ∀ c ∈ pre, isWs c = true)
    (i : Nat) (l : List Char) :
    splitWords i (pre ++ l) = splitWords (i + pre.length) l := by
  induction pre generalizing i with
  | nil => simp
  | cons c cs ih =>
    have hc : isWs c = true := h c (by simp)
    rw [List.cons_append, splitWords_ws_cons _ _ _ hc,
      ih (fun d hd => h d (by simp [hd]))]
    have h2 : i + 1 + cs.length = i + (c :: cs).length := by simp +arith
    rw [h2]

theorem takeWhile_all {α : Type} (p : α → Bool) (l : List α)
    (h : ∀ a ∈ l, p a = true) : l.takeWhile p = l := by
  induction l with
  | nil => rfl
  | cons a l ih =>
    rw [List.takeWhile_cons, h a (by simp)]
    simp [ih (fun b hb => h b (by simp [hb]))]

theorem dropWhile_all {α : Type} (p : α → Bool) (l : List α)
    (h : ∀ a ∈ l, p a = true) : l.dropWhile p = [] := by
  induction l with
  | nil => rfl
  | cons a l ih =>
    rw [List.dropWhile_cons, h a (by simp)]
    simp [ih (fun b hb => h b (by simp [hb]))]

theorem takeWhile_append_neg {α : Type} (p : α → Bool) (l r : List α)
    (hl : ∀ a ∈ l, p a = true)
    (hr : ∀ h : r ≠ [], p (r.head h) = false) :
    (l ++ r).takeWhile p = l ∧ (l ++ r).dropWhile p = r := by
  induction l with
  | nil =>
    cases r with
    | nil => simp
    | cons b bs =>
      have hb : p b = false := hr (by simp)
      simp only [List.head_cons] at hb
      simp [List.takeWhile_cons, List.dropWhile_cons, hb]
  | cons a l ih =>
    have ha : p a = true := hl a (by simp)
    have ih2 := ih (fun b hb => hl b (by simp [hb]))
    simp [List.takeWhile_cons, List.dropWhile_cons, ha, ih2.1, ih2.2]

/-- A "solid" token: non-empty and whitespace-free.  Words produced by the
tokenizer are solid, and solid tokens are recovered verbatim by it. -/
def Solid (w : List Char) : Prop :=
  w ≠ [] ∧ ∀ c ∈ w, isWs c = false

theorem splitWordsAux_run (w : List Char) (hw : ∀ a ∈ w, isWs a = false)
    (c : Char) (hc : isWs c = true) (l : List Char) :
    ∀ (i j : ℕ) (acc : List Char),
      splitWordsAux (w ++ c :: l) i (some (j, acc)) =
        (j, acc.reverse ++ w) :: splitWordsAux l (i + w.length + 1) none := by
  induction w with
  | nil =>
    intro i j acc
    rw [List.nil_append, splitWordsAux.eq_def]
    simp [hc]
  | cons a w ih =>
    intro i j acc
    have ha : isWs a = false := hw a (by simp)
    rw [List.cons_append, splitWordsAux.eq_def]
    simp only [ha, Bool.false_eq_true, if_false]
    rw [ih (fun b hb => hw b (by simp [hb])) (i + 1) j (a :: acc)]
    simp +arith

theorem splitWordsAux_run_end (w : List Char) (hw : ∀ a ∈ w, isWs a = false) :
    ∀ (i j : ℕ) (acc : List Char),
      splitWordsAux w i (some (j, acc)) = [(j, acc.reverse ++ w)] := by
  induction w with
  | nil => intro i j acc; simp [splitWordsAux]
  | cons a w ih =>
    intro i j acc
    have ha : isWs a = false := hw a (by simp)
    rw [splitWordsAux.eq_def]
    simp only [ha, Bool.false_eq_true, if_false]
    rw [ih (fun b hb => hw b (by simp [hb])) (i + 1) j (a :: acc)]
    simp

theorem splitWords_word_cons (i : Nat) (w : List Char) (hw : Solid w)
    (c : Char) (hc : isWs c = true) (l : List Char) :
    splitWords i (w ++ c :: l) = (i, w) :: splitWords (i + w.length) (c :: l) := by
  obtain ⟨hne, hnw⟩ := hw
  cases w with
  | nil => exact absurd rfl hne
  | cons a w =>
    have ha : isWs a = false := hnw a (by simp)
    rw [splitWords, List.cons_append, splitWordsAux.eq_def]
    simp only [ha, Bool.false_eq_true, if_false]
    rw [splitWordsAux_run w (fun b hb => hnw b (by simp [hb])) c hc l,
      splitWords_ws_cons _ c l hc, splitWords]
    have h2 : i + 1 + w.length + 1 = i + (a :: w).length + 1 := by simp +arith
    rw [h2]
    simp

theorem splitWords_word_only (i : Nat) (w : List Char) (hw : Solid w) :
    splitWords i w = [(i, w)] := by
  obtain ⟨hne, hnw⟩ := hw
  cases w with
  | nil => exact absurd rfl hne
  | cons a w =>
    have ha : isWs a = false := hnw a (by simp)
    rw [splitWords, splitWordsAux.eq_def]
    simp only [ha, Bool.false_eq_true, if_false]
    rw [splitWordsAux_run_end w (fun b hb => hnw b (by simp [hb])) (i + 1) i [a]]
    simp

/-- The word strings of a line (tokens without their columns). -/
def wordStrs (l : List Char) : List (List Char) :=
  (splitWords 0 l).map Prod.snd

/-! ## Model of `f64` values and Rust's float literal grammar -/

/-- Model of an `f64` value.  Finite values are carried as exact rationals. -/
inductive FVal : Type
  | num (q : ℚ)
  | nan
  | inf
  | neginf
deriving DecidableEq

/-- Negation of a float value (used for `ScaleLine::Volume(-value)`). -/
def FVal.neg : FVal → FVal
  | .num q => .num (-q)
  | .nan => .nan
  | .inf => .neginf
  | .neginf => .inf

/-- `value.partial_cmp(&0.0)`: `none` exactly for NaN. -/
def FVal.cmp0 : FVal → Option Ordering
  | .num q => some (if q < 0 then .lt else if q = 0 then .eq else .gt)
  | .nan => none
  | .inf => some .gt
  | .neginf => some .lt

/-- Numeric value of a big-endian list of ASCII digit characters. -/
def digitsVal (l : List Char) : ℕ :=
  l.foldl (fun a c => 10 * a + (c.toNat - 48)) 0

/-- `q * 10 ^ (esgn * e)` computed through `Rat.divInt` (kernel-computable;
see `mulPow10_eq`). -/
def mulPow10 (q : ℚ) (esgn : ℤ) (e : ℕ) : ℚ :=
  if esgn = 1 then Rat.divInt (q.num * 10 ^ e) (q.den : ℤ)
  else Rat.divInt q.num ((q.den : ℤ) * 10 ^ e)

/-- Exponent part of Rust's float grammar: `(e|E) sign? digit+`, or nothing.
`mant` is the exact value of the mantissa (sign included). -/
def parseExpPart (mant : ℚ) (rest : List Char) : Option FVal :=
  match rest with
  | [] => some (.num mant)
  | e :: r =>
    if e = 'e' ∨ e = 'E' then
      let esgn : ℤ := if r.head? = some '-' then -1 else 1
      let r2 : List Char :=
        if r.head? = some '+' ∨ r.head? = some '-' then r.tail else r
      if r2 ≠ [] ∧ r2.all isDigitC then
        some (.num (mulPow10 mant esgn (digitsVal r2)))
      else none
    else none

/-- Number part of Rust's float grammar (after the sign):
`digit+ ('.' digit*)? exp?` or `'.' digit+ exp?`.  The mantissa value
`sgn * digits / 10 ^ (number of fraction digits)` is computed through
`Rat.divInt` (see `mantissa_eq`). -/
def parseNumPart (sgn : ℤ) (r : List Char) : Option FVal :=
  let ip := r.takeWhile isDigitC
  let r1 := r.dropWhile isDigitC
  if r1.head? = some '.' then
    let r2 := r1.tail
    let fp := r2.takeWhile isDigitC
    let r3 := r2.dropWhile isDigitC
    if ip = [] ∧ fp = [] then none
    else parseExpPart (Rat.divInt (sgn * (digitsVal (ip ++ fp) : ℤ)) ((10 : ℤ) ^ fp.length)) r3
  else
    if ip = [] then none
    else parseExpPart (Rat.divInt (sgn * (digitsVal ip : ℤ)) 1) r1

/-- Case-insensitive comparison against a lowercase keyword. -/
def kwEq (l : List Char) (kw : List Char) : Bool :=
  l.map lowerC == kw

/-- Model of Rust's `f64::from_str` grammar:
`sign? ('inf' | 'infinity' | 'nan' | number)`, keywords case-insensitive.
The numeric value is computed exactly (no rounding to binary64). -/
def parseF64 (l : List Char) : Option FVal :=
  let sgn : ℤ := if l.head? = some '-' then -1 else 1
  let r : List Char :=
    if l.head? = some '+' ∨ l.head? = some '-' then l.tail else l
  if kwEq r ['i', 'n', 'f'] || kwEq r ['i', 'n', 'f', 'i', 'n', 'i', 't', 'y'] then
    some (if sgn = 1 then .inf else .neginf)
  else if kwEq r ['n', 'a', 'n'] then some .nan
  else parseNumPart sgn r

/-! ## Primitive sub-parsers (Logical, Unsigned, symbols) and the classifier -/

/-- `impl FromStr for Logical` (parse.rs lines 304-322): an optional leading
dot, then a single case-insensitive letter; the rest is ignored. -/
def stripDot (input : List Char) : List Char :=
  if input.head? = some '.' then input.tail else input

def logicalFromStr (input : List Char) : Option Bool :=
  match (stripDot input).head? with
  | some c =>
    if c = 't' ∨ c = 'T' then some true
    else if c = 'f' ∨ c = 'F' then some false
    else none
  | none => none

/-- Rust's standard `u64::from_str` grammar: optional leading `+`, then a
non-empty digit string whose value fits in a `u64`. -/
def stdU64FromStr (l : List Char) : Option ℕ :=
  let l2 := if l.head? = some '+' then l.tail else l
  if l2 ≠ [] ∧ l2.all isDigitC ∧ digitsVal l2 < 2 ^ 64 then some (digitsVal l2)
  else none

/-- `impl FromStr for Unsigned` (parse.rs lines 339-349): reject a leading
`+`, otherwise delegate to `u64::from_str`. -/
def unsignedFromStr (l : List Char) : Option ℕ :=
  if l.head? = some '+' then none else stdU64FromStr l

/-- `is_valid_symbol_for_symbol_line` (parse.rs lines 355-365): non-empty,
no whitespace byte, no leading digit. -/
def isValidSymbol (s : List Char) : Bool :=
  match s with
  | [] => false
  | c :: _ => s.all (fun d => !(isWs d)) && !(isDigitC c)

/-- `CoordLineType` (parse.rs lines 370-385). -/
inductive CoordLineType : Type
  | cartesian
  | direct
  | indentedText
  | emptyOrWhitespace
  | suspiciouslyDirect
deriving DecidableEq

/-- Trailing-whitespace trim (Rust `str::trim_end`, ASCII inputs). -/
def trimEnd (l : List Char) : List Char :=
  (l.reverse.dropWhile isWs).reverse

/-- Two-sided trim (Rust `str::trim`, ASCII inputs). -/
def trimBoth (l : List Char) : List Char :=
  (trimEnd l).dropWhile isWs

/-- `classify_coord_line` (parse.rs lines 387-400). -/
def classifyCoordLine (line : List Char) : CoordLineType :=
  match trimEnd line with
  | [] => .emptyOrWhitespace
  | c :: _ =>
    if c = 'c' ∨ c = 'C' ∨ c = 'k' ∨ c = 'K' then .cartesian
    else if c = 'd' ∨ c = 'D' then .direct
    else if isWs c then .indentedText
    else .suspiciouslyDirect

/-! ## Spans, errors, and the line source -/

/-- `Spanned` (parse.rs lines 111-117): a string with its position.  The
shared path is dropped (it only decorates error messages). -/
structure Sp : Type where
  line : ℕ
  col : ℕ
  s : List Char
deriving DecidableEq

/-- Error kinds (`error::Kind`, parse.rs lines 85-91). -/
inductive EKind : Type
  | parseFloat
  | parseLogical
  | parseUnsigned
  | generic (msg : String)
deriving DecidableEq

/-- `ParseError` (parse.rs lines 56-64), without the path. -/
structure PErr : Type where
  kind : EKind
  line : Option ℕ
  col : Option ℕ
deriving DecidableEq

/-- `Spanned::error` (parse.rs lines 159-168). -/
def Sp.err (sp : Sp) (k : EKind) : PErr :=
  ⟨k, some sp.line, some sp.col⟩

/-- State of the `Lines` reader (parse.rs lines 102-108): current line index
and the remaining lines. -/
structure St : Type where
  cur : ℕ
  rest : List (List Char)
deriving DecidableEq

/-- `Lines::next` (parse.rs lines 131-147). -/
def linesNext (st : St) : Except PErr (Sp × St) :=
  match st.rest with
  | [] => .error ⟨.generic "unexpected end of file", some st.cur, none⟩
  | l :: ls => .ok (⟨st.cur, 0, l⟩, ⟨st.cur + 1, ls⟩)

/-- `Spanned::words` (parse.rs lines 200-233). -/
def wordsOf (sp : Sp) : List Sp :=
  (splitWords 0 sp.s).map (fun p => ⟨sp.line, sp.col + p.1, p.2⟩)

/-- `Spanned::control_char` (parse.rs line 244). -/
def controlChar (sp : Sp) : Option Char :=
  sp.s.head?

/-- `Lines::expect_blank_until_eof` (parse.rs lines 149-156): consume every
remaining line, failing at the first non-whitespace token. -/
def expectBlank (cur : ℕ) (rest : List (List Char)) : Except PErr St :=
  match rest with
  | [] => .ok ⟨cur, []⟩
  | l :: ls =>
    match wordsOf ⟨cur, 0, l⟩ with
    | [] => expectBlank (cur + 1) ls
    | w :: _ => .error (w.err (.generic "expected end of file"))

/-- `expect_blank_until_eof` acting on the reader state. -/
def expectBlankSt (st : St) : Except PErr St :=
  expectBlank st.cur st.rest

/-- `Words::next_or_err` (parse.rs lines 259-266): the error has the line but
no column. -/
def nextWordErr (line : ℕ) (ws : List Sp) (msg : String) :
    Except PErr (Sp × List Sp) :=
  match ws with
  | [] => .error ⟨.generic msg, some line, none⟩
  | w :: rest => .ok (w, rest)

/-- `span.parse::<f64>()`: parse a token as a float, tagging failures with the
token's position. -/
def spParseF64 (sp : Sp) : Except PErr FVal :=
  match parseF64 sp.s with
  | some v => .ok v
  | none => .error (sp.err .parseFloat)

/-- `span.parse::<Logical>()`. -/
def spParseLogical (sp : Sp) : Except PErr Bool :=
  match logicalFromStr sp.s with
  | some b => .ok b
  | none => .error (sp.err .parseLogical)

instance {ε α : Type} [DecidableEq ε] [DecidableEq α] :
    DecidableEq (Except ε α) := fun x y =>
  match x, y with
  | .ok a, .ok b =>
    if h : a = b then isTrue (by rw [h]) else isFalse (by simp [h])
  | .error e, .error f =>
    if h : e = f then isTrue (by rw [h]) else isFalse (by simp [h])
  | .ok _, .error _ => isFalse (by simp)
  | .error _, .ok _ => isFalse (by simp)

@[simp] theorem except_pure_eq_ok {ε α : Type} (a : α) :
    (pure a : Except ε α) = .ok a := rfl

@[simp] theorem except_ok_bind {ε α β : Type} (a : α) (f : α → Except ε β) :
    (Except.ok a >>= f : Except ε β) = f a := rfl

@[simp] theorem except_error_bind {ε α β : Type} (e : ε) (f : α → Except ε β) :
    (Except.error e >>= f : Except ε β) = Except.error e := rfl

@[simp] theorem except_isOk_ok {ε α : Type} (a : α) :
    (Except.ok a : Except ε α).isOk = true := rfl

@[simp] theorem except_isOk_error {ε α : Type} (e : ε) :
    (Except.error e : Except ε α).isOk = false := rfl

@[simp] theorem except_map_ok {ε α β : Type} (f : α → β) (a : α) :
    (Except.ok a : Except ε α).map f = Except.ok (f a) := rfl

@[simp] theorem except_map_error {ε α β : Type} (f : α → β) (e : ε) :
    (Except.error e : Except ε α).map f = Except.error e := rfl

/-! ## Document data model (`RawPoscar` in lib.rs) -/

/-- Coordinate triples. -/
abbrev V3 (α : Type) : Type := α × α × α

/-- `ScaleLine`: multiplicative factor or (positive) target volume. -/
inductive ScaleLine : Type
  | factor (v : FVal)
  | volume (v : FVal)
deriving DecidableEq

/-- `Coords`: a coordinate data block tagged Cartesian or Direct. -/
inductive Coords : Type
  | cart (v : List (V3 FVal))
  | frac (v : List (V3 FVal))
deriving DecidableEq

/-- The raw data rows of a `Coords` (Rust `Coords::raw`). -/
def Coords.raw : Coords → List (V3 FVal)
  | .cart v => v
  | .frac v => v

/-- `RawPoscar`: the parsed document. -/
structure RawPoscar : Type where
  comment : List Char
  scale : ScaleLine
  lattice_vectors : V3 (V3 FVal)
  group_symbols : Option (List (List Char))
  group_counts : List ℕ
  positions : Coords
  dynamics : Option (List (V3 Bool))
  velocities : Option Coords
deriving DecidableEq

/-! ## Section parsers of `_from_reader` -/

/-- The scale-line section (parse.rs lines 409-445). -/
def parseScale (line : Sp) : Except PErr ScaleLine := do
  let ws := wordsOf line
  let (w, rest) ← nextWordErr line.line ws "expected scale"
  let value ← spParseF64 w
  let scale : ScaleLine ← match value.cmp0 with
    | some .lt => .ok (.volume value.neg)
    | some .gt => .ok (.factor value)
    | some .eq => .error (w.err (.generic "scale cannot be zero"))
    | none => .error (w.err (.generic "scale cannot be nan"))
  match rest with
  | [] => pure scale
  | w2 :: _ =>
    match parseF64 w2.s with
    | some _ =>
      .error (w2.err (.generic "too many floats on scale line (expected just one)"))
    | none => pure scale

/-- Read the next word and parse it as a float (one component of a data row). -/
def next1F (line : ℕ) (ws : List Sp) (msg : String) :
    Except PErr (FVal × List Sp) := do
  let (w, rest) ← nextWordErr line ws msg
  let v ← spParseF64 w
  .ok (v, rest)

/-- Three float components from the words of one line (extra words are
freeform comment). -/
def next3F (line : ℕ) (ws : List Sp) (msg : String) :
    Except PErr (V3 FVal × List Sp) := do
  let (a, ws) ← next1F line ws msg
  let (b, ws) ← next1F line ws msg
  let (c, ws) ← next1F line ws msg
  .ok ((a, b, c), ws)

/-- One lattice-vector line (parse.rs lines 447-454). -/
def parseLatticeRow (st : St) : Except PErr (V3 FVal × St) := do
  let (line, st) ← linesNext st
  let (v, _) ← next3F line.line (wordsOf line)
    "expected three components for lattice vector"
  .ok (v, st)

/-- The three lattice-vector lines. -/
def parseLattice (st : St) : Except PErr (V3 (V3 FVal) × St) := do
  let (a, st) ← parseLatticeRow st
  let (b, st) ← parseLatticeRow st
  let (c, st) ← parseLatticeRow st
  .ok ((a, b, c), st)

/-- The counts tokens: parse words left to right as strict unsigned integers,
stopping at the first failure (parse.rs lines 480-485). -/
def parseCounts (ws : List Sp) : List ℕ :=
  (ws.map (fun w => unsignedFromStr w.s)).takeWhile Option.isSome
    |>.filterMap id

/-- The length check of parse.rs lines 487-491: with symbols present, their
number must equal the number of parsed counts. -/
def checkSyms (group_symbols : Option (List (List Char))) (counts_line : Sp)
    (group_counts : List ℕ) : Except PErr Unit :=
  match group_symbols with
  | some syms =>
    if syms.length ≠ group_counts.length then
      .error (counts_line.err (.generic "Inconsistent number of counts"))
    else .ok ()
  | none => .ok ()

/-- The symbols/counts section (parse.rs lines 456-499). -/
def parseSymCounts (st : St) :
    Except PErr ((Option (List (List Char)) × List ℕ × ℕ) × St) := do
  let (line, st) ← linesNext st
  let _ ← nextWordErr line.line (wordsOf line) "expected at least one element or count"
  let (group_symbols, counts_line, st) ←
    if isDigitC ((trimBoth line.s).headD ' ') then
      pure ((none : Option (List (List Char))), line, st)
    else do
      let syms ← (wordsOf line).mapM (fun w =>
        if isValidSymbol w.s then pure w.s
        else .error (w.err (.generic "invalid symbol")))
      let (counts_line, st) ← linesNext st
      pure (some syms, counts_line, st)
  let group_counts := parseCounts (wordsOf counts_line)
  let _ ← checkSyms group_symbols counts_line group_counts
  let n := group_counts.sum
  if n = 0 then
    .error (counts_line.err (.generic "There must be at least one atom."))
  else
    .ok ((group_symbols, group_counts, n), st)

/-- Three boolean flags from the words of one line (selective dynamics). -/
def next3B (line : ℕ) (ws : List Sp) (msg : String) :
    Except PErr (V3 Bool × List Sp) := do
  let (wa, ws) ← nextWordErr line ws msg
  let a ← spParseLogical wa
  let (wb, ws) ← nextWordErr line ws msg
  let b ← spParseLogical wb
  let (wc, ws) ← nextWordErr line ws msg
  let c ← spParseLogical wc
  .ok ((a, b, c), ws)

/-- The position data loop (parse.rs lines 533-547): `n` lines, three
coordinates each, plus three boolean flags when selective dynamics is on.
The flag list stays empty when `hasSel` is false. -/
def posLoop (hasSel : Bool) : ℕ → St →
    Except PErr ((List (V3 FVal) × List (V3 Bool)) × St)
  | 0, st => .ok (([], []), st)
  | n + 1, st => do
    let (line, st) ← linesNext st
    let ws := wordsOf line
    let (p, ws) ← next3F line.line ws "expected 3 coordinates"
    if hasSel then do
      let (d, _) ← next3B line.line ws "expected 3 boolean flags"
      let ((ps, ds), st) ← posLoop hasSel n st
      .ok ((p :: ps, d :: ds), st)
    else do
      let ((ps, ds), st) ← posLoop hasSel n st
      .ok ((p :: ps, ds), st)

/-- The flag lines and position data (parse.rs lines 501-558). -/
def parsePosBlock (n : ℕ) (st : St) :
    Except PErr ((Coords × Option (List (V3 Bool))) × St) := do
  let (line, st) ← linesNext st
  let (hasSel, line, st) ←
    if controlChar line = some 's' ∨ controlChar line = some 'S' then do
      let (l2, st2) ← linesNext st
      pure (true, l2, st2)
    else pure (false, line, st)
  let hasDirect :=
    match classifyCoordLine line.s with
    | .cartesian => false
    | _ => true
  let ((ps, ds), st) ← posLoop hasSel n st
  let positions := if hasDirect then Coords.frac ps else Coords.cart ps
  let dynamics := if hasSel then some ds else none
  .ok ((positions, dynamics), st)

/-- `PresenceIs` (parse.rs line 578). -/
inductive PresenceIs : Type
  | required
  | possible
deriving DecidableEq

/-- The velocity data loop: `k` further lines of three coordinates each. -/
def velLoop : ℕ → St → Except PErr (List (V3 FVal) × St)
  | 0, st => .ok ([], st)
  | k + 1, st => do
    let (line, st) ← linesNext st
    let (v, _) ← next3F line.line (wordsOf line) "expected 3 coordinates"
    let (vs, st) ← velLoop k st
    .ok (v :: vs, st)

/-- The velocity-block decision procedure (parse.rs lines 569-660): resolve
the ambiguity between trailing blank lines and a velocity block with one
line of lookahead. -/
def parseTail (n : ℕ) (st : St) : Except PErr (Option Coords × St) :=
  match linesNext st with
  | .error _ => .ok (none, st)
  | .ok (line, st1) =>
    let (hasDirect, status) : Bool × PresenceIs :=
      match classifyCoordLine line.s with
      | .cartesian => (false, .required)
      | .emptyOrWhitespace => (true, .possible)
      | _ => (true, .required)
    match linesNext st1, status with
    | .error e, .required => .error e
    | .error _, .possible => .ok (none, st1)
    | .ok (line2, st2), _ =>
      match status, trimBoth line2.s with
      | .possible, [] => do
        let st3 ← expectBlankSt st2
        .ok (none, st3)
      | _, _ => do
        let (v1, _) ← next3F line2.line (wordsOf line2) "expected 3 coordinates"
        let (vs, st3) ← velLoop (n - 1) st2
        let velocities := if hasDirect then Coords.frac (v1 :: vs) else Coords.cart (v1 :: vs)
        .ok (some velocities, st3)

/-- `_from_reader` (parse.rs lines 402-672), over a list of lines. -/
def fromLines (input : List (List Char)) : Except PErr RawPoscar := do
  let st : St := ⟨0, input⟩
  let (commentSp, st) ← linesNext st
  let comment := commentSp.s
  let (scaleLine, st) ← linesNext st
  let scale ← parseScale scaleLine
  let (lattice_vectors, st) ← parseLattice st
  let ((group_symbols, group_counts, n), st) ← parseSymCounts st
  let ((positions, dynamics), st) ← parsePosBlock n st
  let (velocities, st) ← parseTail n st
  let _ ← expectBlankSt st
  .ok { comment, scale, lattice_vectors, group_symbols, group_counts,
        positions, dynamics, velocities }

/-! ## The writer (`to_writer` in write.rs)

Output is modelled as the list of lines produced by the `writeln!` calls.
The writer's `assert!`s, the `dynamics[i]` indexing, and `dtoa`'s inability
to print non-finite values are modelled as `Except` errors, so that writer
totality on valid documents is a theorem rather than a convention. -/

/-- Little-endian decimal digits, fuel-based so it kernel-reduces. -/
def natDigitsAux : ℕ → ℕ → List ℕ
  | 0, _ => []
  | fuel + 1, n => if n = 0 then [] else n % 10 :: natDigitsAux fuel (n / 10)

/-- Little-endian decimal digits of a natural number. -/
def natDigits (n : ℕ) : List ℕ :=
  natDigitsAux n n

/-- Big-endian decimal digits of a natural number. -/
def natChars (n : ℕ) : List Char :=
  if n = 0 then ['0']
  else (natDigits n).reverse.map (fun d => Char.ofNat (48 + d))

/-- Decimal rendering of an integer. -/
def intChars (m : ℤ) : List Char :=
  if m < 0 then '-' :: natChars m.natAbs else natChars m.natAbs

/-- Model of `dtoa` on a finite value: print the exact decimal expansion as
`<mantissa>e-<k>`.  Binary64 values are dyadic rationals, so the smallest
`e` with `den ∣ 10^e` exists; the defining property of `dtoa` (its output
re-parses to the same value) is `parseF64_dtoaQ` below. -/
def dtoaQ (q : ℚ) : Option (List Char) :=
  match (List.range (q.den + 1)).find? (fun e => decide ((q.den : ℤ) ∣ 10 ^ e)) with
  | none => none
  | some e => some (intChars (q.num * 10 ^ e / (q.den : ℤ)) ++ 'e' :: '-' :: natChars e)

/-- `dtoa` on an `f64` value: fails on non-finite values. -/
def dtoaF : FVal → Option (List Char)
  | .num q => dtoaQ q
  | _ => none

/-- `k` spaces. -/
def spaces (k : ℕ) : List Char :=
  List.replicate k ' '

/-- `write_sep` (write.rs lines 82-96). -/
def sepBy (sep : List Char) : List (List Char) → List Char
  | [] => []
  | [t] => t
  | t :: ts => t ++ sep ++ sepBy sep ts

/-- Rust `format!("\x7b:>2\x7d", s)`: left-pad to width 2. -/
def padLeft2 (s : List Char) : List Char :=
  spaces (2 - s.length) ++ s

/-- `By3` with `Dtoa` (write.rs lines 110-120): three space-separated floats. -/
def by3F (v : V3 FVal) : Option (List Char) := do
  let a ← dtoaF v.1
  let b ← dtoaF v.2.1
  let c ← dtoaF v.2.2
  pure (sepBy [' '] [a, b, c])

/-- `By3` with the `T`/`F` flag formatter. -/
def by3TF (v : V3 Bool) : List Char :=
  let tf : Bool → Char := fun b => if b then 'T' else 'F'
  sepBy [' '] [[tf v.1], [tf v.2.1], [tf v.2.2]]

/-- Lift `dtoa`'s possible failure into the writer's error monad. -/
def liftO {α : Type} (o : Option α) : Except String α :=
  match o with
  | some a => .ok a
  | none => .error "BUG: dtoa cannot print a non-finite float"

/-- The per-row data lines (write.rs lines 57-64): coordinates, then flags
when dynamics is present; `dynamics[i]` out of range models the panic. -/
def dataLines : List (V3 FVal) → Option (List (V3 Bool)) →
    Except String (List (List Char))
  | [], _ => .ok []
  | c :: cs, none => do
    let b ← liftO (by3F c)
    let rest ← dataLines cs none
    .ok ((spaces 2 ++ b) :: rest)
  | c :: cs, some ds =>
    match ds with
    | [] => .error "BUG: dynamics index out of bounds"
    | d :: ds => do
      let b ← liftO (by3F c)
      let rest ← dataLines cs (some ds)
      .ok ((spaces 2 ++ b ++ ' ' :: by3TF d) :: rest)

/-- The symbols line of the writer (write.rs lines 39-43), when present. -/
def writeSymLines (gs : Option (List (List Char))) : List (List Char) :=
  match gs with
  | some syms => [spaces 2 ++ sepBy [' '] (syms.map padLeft2)]
  | none => []

/-- The counts line of the writer (write.rs lines 45-47). -/
def writeCountsLine (counts : List ℕ) : List Char :=
  spaces 2 ++ sepBy [' '] (counts.map (fun c => padLeft2 (natChars c)))

/-- The "Selective Dynamics" line (write.rs lines 49-51), when present. -/
def writeSelLines (dyn : Option (List (V3 Bool))) : List (List Char) :=
  match dyn with
  | some _ => [String.data "Selective Dynamics"]
  | none => []

/-- The coordinate-system header line (write.rs lines 53-55). -/
def writeHeaderLine (pos : Coords) : List Char :=
  match pos with
  | .cart _ => String.data "Cartesian"
  | .frac _ => String.data "Direct"

/-- The scale line of the writer (write.rs lines 27-30). -/
def writeScaleLine (s : ScaleLine) : Except String (List Char) :=
  match s with
  | .factor x => do
    let t ← liftO (dtoaF x)
    pure (spaces 2 ++ t)
  | .volume x => do
    let t ← liftO (dtoaF x)
    pure (spaces 2 ++ '-' :: t)

/-- The velocity block of the writer (write.rs lines 66-77): a header line
("Cartesian", or an empty line for Direct) and the data rows. -/
def writeVelLines : Option Coords → Except String (List (List Char))
  | none => pure []
  | some v => do
    let hdr :=
      match v with
      | .cart _ => String.data "Cartesian"
      | .frac _ => ([] : List Char)
    let vls ← dataLines v.raw none
    pure (hdr :: vls)

/-- `to_writer` (write.rs lines 11-80), producing the output lines. -/
def to_writer (p : RawPoscar) : Except String (List (List Char)) := do
  if p.comment.contains '\n' then .error "BUG: newline in comment" else pure ()
  if p.comment.contains '\r' then .error "BUG: carriage return in comment" else pure ()
  let scaleL ← writeScaleLine p.scale
  let (la, lb, lc) := p.lattice_vectors
  let ra ← liftO (by3F la)
  let rb ← liftO (by3F lb)
  let rc ← liftO (by3F lc)
  let symLines := writeSymLines p.group_symbols
  if p.group_counts = [] then .error "BUG: empty group_counts" else pure ()
  let countsL := writeCountsLine p.group_counts
  let selLines := writeSelLines p.dynamics
  let headerL := writeHeaderLine p.positions
  let dataLs ← dataLines p.positions.raw p.dynamics
  let velLs ← writeVelLines p.velocities
  .ok ([p.comment, scaleL, spaces 4 ++ ra, spaces 4 ++ rb, spaces 4 ++ rc]
    ++ symLines ++ [countsL] ++ selLines ++ [headerL] ++ dataLs ++ velLs)

/-! ## Decimal digits: printing and re-parsing -/

theorem digit_char_facts (d : ℕ) (hd : d < 10) :
    (Char.ofNat (48 + d)).toNat = 48 + d ∧ isDigitC (Char.ofNat (48 + d)) = true ∧
    isWs (Char.ofNat (48 + d)) = false := by
  interval_cases d <;> refine ⟨by decide, by decide, by decide⟩

theorem natDigitsAux_fuel (f : ℕ) :
    ∀ m, m ≤ f → natDigitsAux f m = natDigitsAux m m := by
  induction f using Nat.strong_induction_on with
  | _ f ih =>
    intro m hm
    match f, m with
    | 0, m =>
      interval_cases m
      rfl
    | f + 1, 0 => rfl
    | f + 1, m + 1 =>
      rw [natDigitsAux, natDigitsAux]
      simp only [Nat.succ_ne_zero, if_false]
      have h1 : (m + 1) / 10 ≤ f := by omega
      have h2 : (m + 1) / 10 ≤ m := by omega
      rw [ih f (by omega) _ h1, ← ih m (by omega) _ h2]

theorem natDigits_unfold (m : ℕ) :
    natDigits m = if m = 0 then [] else m % 10 :: natDigits (m / 10) := by
  cases m with
  | zero => rfl
  | succ m =>
    rw [natDigits, natDigitsAux]
    simp only [Nat.succ_ne_zero, if_false]
    rw [natDigitsAux_fuel m _ (by omega)]
    rfl

theorem natDigits_mem_lt (m : ℕ) : ∀ d ∈ natDigits m, d < 10 := by
  induction m using Nat.strong_induction_on with
  | _ m ih =>
    intro d hd
    rw [natDigits_unfold] at hd
    by_cases hm : m = 0
    · simp [hm] at hd
    · simp only [hm, if_false, List.mem_cons] at hd
      rcases hd with rfl | hd
      · omega
      · exact ih (m / 10) (by omega) d hd

theorem digitsVal_append_one (l : List Char) (c : Char) :
    digitsVal (l ++ [c]) = 10 * digitsVal l + (c.toNat - 48) := by
  simp [digitsVal, List.foldl_append]

theorem digitsVal_rev_digits (m : ℕ) :
    digitsVal ((natDigits m).reverse.map (fun d => Char.ofNat (48 + d))) = m := by
  induction m using Nat.strong_induction_on with
  | _ m ih =>
    by_cases hm : m = 0
    · subst hm; rfl
    · rw [natDigits_unfold]
      simp only [hm, if_false, List.reverse_cons, List.map_append, List.map_cons,
        List.map_nil]
      rw [digitsVal_append_one, ih (m / 10) (by omega),
        (digit_char_facts (m % 10) (by omega)).1]
      omega

theorem digitsVal_natChars (n : ℕ) : digitsVal (natChars n) = n := by
  by_cases hn : n = 0
  · subst hn; decide
  · rw [natChars, if_neg hn]
    exact digitsVal_rev_digits n

theorem natChars_ne_nil (n : ℕ) : natChars n ≠ [] := by
  by_cases hn : n = 0
  · subst hn; decide
  · rw [natChars, if_neg hn, natDigits_unfold, if_neg hn]
    simp

theorem natChars_digits (n : ℕ) : ∀ c ∈ natChars n, isDigitC c = true := by
  intro c hc
  by_cases hn : n = 0
  · subst hn
    simp [natChars] at hc
    subst hc; decide
  · rw [natChars, if_neg hn] at hc
    simp only [List.mem_map, List.mem_reverse] at hc
    obtain ⟨d, hd, rfl⟩ := hc
    exact (digit_char_facts d (natDigits_mem_lt n d hd)).2.1

theorem natChars_solid (n : ℕ) : Solid (natChars n) := by
  refine ⟨natChars_ne_nil n, ?_⟩
  intro c hc
  by_cases hn : n = 0
  · subst hn
    simp [natChars] at hc
    subst hc; decide
  · rw [natChars, if_neg hn] at hc
    simp only [List.mem_map, List.mem_reverse] at hc
    obtain ⟨d, hd, rfl⟩ := hc
    exact (digit_char_facts d (natDigits_mem_lt n d hd)).2.2

theorem digit_char_ne (c : Char) (h : isDigitC c = true) :
    c ≠ '+' ∧ c ≠ '-' ∧ c ≠ '.' ∧ lowerC c = c ∧ c ≠ 'i' ∧ c ≠ 'n' ∧ c ≠ 'e' ∧
    c ≠ 'E' ∧ isWs c = false := by
  rw [isDigitC] at h
  simp only [Bool.and_eq_true, decide_eq_true_eq] at h
  obtain ⟨h1, h2⟩ := h
  refine ⟨?_, ?_, ?_, ?_, ?_, ?_, ?_, ?_, ?_⟩
  · intro hc; subst hc; revert h1 h2; decide
  · intro hc; subst hc; revert h1 h2; decide
  · intro hc; subst hc; revert h1 h2; decide
  · rw [lowerC, if_neg (by omega)]
  · intro hc; subst hc; revert h1 h2; decide
  · intro hc; subst hc; revert h1 h2; decide
  · intro hc; subst hc; revert h1 h2; decide
  · intro hc; subst hc; revert h1 h2; decide
  · have c1 : c ≠ ' ' := by intro hc; subst hc; revert h1 h2; decide
    have c2 : c ≠ '\t' := by intro hc; subst hc; revert h1 h2; decide
    have c3 : c ≠ '\r' := by intro hc; subst hc; revert h1 h2; decide
    have c4 : c ≠ '\n' := by intro hc; subst hc; revert h1 h2; decide
    simp [isWs, c1, c2, c3, c4]

theorem kwEq_digit_head (c : Char) (hc : isDigitC c = true) (l : List Char)
    (k : Char) (kw : List Char) (hk : k = 'i' ∨ k = 'n') :
    kwEq (c :: l) (k :: kw) = false := by
  obtain ⟨_, _, _, hlow, hi, hn, _, _, _⟩ := digit_char_ne c hc
  rw [kwEq]
  apply beq_eq_false_iff_ne.mpr
  intro heq
  rw [List.map_cons] at heq
  injection heq with h1 _
  rw [hlow] at h1
  rcases hk with rfl | rfl
  · exact hi h1
  · exact hn h1

theorem divInt_one_eq (z : ℤ) : Rat.divInt z 1 = (z : ℚ) := by
  rw [Rat.divInt_eq_div]
  push_cast
  rw [div_one]

theorem mulPow10_neg_one (q : ℚ) (e : ℕ) : mulPow10 q (-1) e = q / 10 ^ e := by
  rw [mulPow10, if_neg (by norm_num), Rat.divInt_eq_div]
  push_cast
  rw [div_mul_eq_div_div, Rat.num_div_den]

theorem parseNumPart_print (sgn : ℤ) (a e : ℕ) :
    parseNumPart sgn (natChars a ++ 'e' :: '-' :: natChars e) =
      some (.num (((sgn * a : ℤ) : ℚ) / 10 ^ e)) := by
  have hdig := natChars_digits a
  have htd := takeWhile_append_neg isDigitC (natChars a) ('e' :: '-' :: natChars e)
    hdig (fun _ => by rw [List.head_cons]; decide)
  rw [parseNumPart]
  simp +decide only [htd.1, htd.2, List.head?_cons, List.tail_cons, if_false, if_true]
  rw [if_neg (natChars_ne_nil a), parseExpPart]
  simp +decide only [List.head?_cons, List.tail_cons, if_false, if_true]
  rw [if_pos ⟨natChars_ne_nil e, List.all_eq_true.mpr
    (fun c hcm => natChars_digits e c hcm)⟩]
  rw [digitsVal_natChars, digitsVal_natChars, mulPow10_neg_one, divInt_one_eq]

theorem print_solid (a e : ℕ) : Solid (natChars a ++ 'e' :: '-' :: natChars e) := by
  constructor
  · simp
  · intro c hc
    rw [List.mem_append] at hc
    rcases hc with hc | hc
    · exact (natChars_solid a).2 c hc
    · rw [List.mem_cons, List.mem_cons] at hc
      rcases hc with rfl | rfl | hc
      · decide
      · decide
      · exact (natChars_solid e).2 c hc

theorem parseF64_print_pos (a e : ℕ) :
    parseF64 (natChars a ++ 'e' :: '-' :: natChars e) =
      some (.num ((a : ℚ) / 10 ^ e)) := by
  obtain ⟨c, D, hD⟩ : ∃ c D, natChars a = c :: D := by
    cases h : natChars a with
    | nil => exact absurd h (natChars_ne_nil a)
    | cons c D => exact ⟨c, D, rfl⟩
  have hc : isDigitC c = true := natChars_digits a c (by rw [hD]; simp)
  obtain ⟨hp, hm, _, _, _, _, _, _, _⟩ := digit_char_ne c hc
  have hns : ¬(some c = some '+' ∨ some c = some '-') := by
    rintro (hx | hx)
    · exact hp (Option.some.inj hx)
    · exact hm (Option.some.inj hx)
  rw [parseF64, hD, List.cons_append]
  simp only [List.head?_cons]
  have h0 : (some c = some '+') = False := by simp [hp]
  have h1 : (some c = some '-') = False := by simp [hm]
  simp only [h0, h1, or_false, false_or, if_false]
  rw [kwEq_digit_head c hc _ 'i' _ (Or.inl rfl),
    kwEq_digit_head c hc _ 'i' _ (Or.inl rfl),
    kwEq_digit_head c hc _ 'n' _ (Or.inr rfl)]
  simp only [Bool.or_self, Bool.false_eq_true, if_false]
  rw [← List.cons_append, ← hD, parseNumPart_print 1 a e]
  norm_num

theorem parseF64_print_neg (a e : ℕ) :
    parseF64 ('-' :: (natChars a ++ 'e' :: '-' :: natChars e)) =
      some (.num (-((a : ℚ) / 10 ^ e))) := by
  obtain ⟨c, D, hD⟩ : ∃ c D, natChars a = c :: D := by
    cases h : natChars a with
    | nil => exact absurd h (natChars_ne_nil a)
    | cons c D => exact ⟨c, D, rfl⟩
  have hc : isDigitC c = true := natChars_digits a c (by rw [hD]; simp)
  rw [parseF64]
  simp +decide only [List.head?_cons, List.tail_cons, if_false, if_true]
  rw [hD, List.cons_append]
  rw [kwEq_digit_head c hc _ 'i' _ (Or.inl rfl),
    kwEq_digit_head c hc _ 'i' _ (Or.inl rfl),
    kwEq_digit_head c hc _ 'n' _ (Or.inr rfl)]
  simp only [Bool.or_self, Bool.false_eq_true, if_false]
  rw [← List.cons_append, ← hD, parseNumPart_print (-1) a e]
  norm_num [neg_div]

/-- The model-side counterpart of "is a (finite) binary64 value": an exact
finite decimal rational.  Every binary64 value m/2^k equals (m·5^k)/10^k. -/
def FinF (v : FVal) : Prop :=
  ∃ (m : ℤ) (k : ℕ), v = .num ((m : ℚ) / 10 ^ k)

theorem den_dvd_pow10 (q : ℚ) (m : ℤ) (k : ℕ) (h : q = (m : ℚ) / 10 ^ k) :
    (q.den : ℤ) ∣ 10 ^ k := by
  have hq : q = Rat.divInt m (10 ^ k) := by
    rw [Rat.divInt_eq_div, h]
    push_cast
    ring
  rw [hq]
  exact Rat.den_dvd m ((10 : ℤ) ^ k)

theorem exists_pow10_dvd (den : ℕ) (hpos : 0 < den) (k : ℕ) (h : den ∣ 10 ^ k) :
    ∃ e, e ≤ den ∧ den ∣ 10 ^ e := by
  obtain ⟨a, m, hm2, hden⟩ :=
    Nat.exists_eq_pow_mul_and_not_dvd hpos.ne' 2 (by norm_num)
  have hmden : m ∣ den := by
    rw [hden]
    exact dvd_mul_left m (2 ^ a)
  have hm : m ∣ 10 ^ k := hmden.trans h
  have h10 : (10 : ℕ) ^ k = 2 ^ k * 5 ^ k := by rw [← Nat.mul_pow]
  have hcop : Nat.Coprime m (2 ^ k) :=
    Nat.Coprime.pow_right k ((Nat.prime_two.coprime_iff_not_dvd.mpr hm2).symm)
  have hm5 : m ∣ 5 ^ k := hcop.dvd_of_dvd_mul_left (h10 ▸ hm)
  obtain ⟨b, hbk, rfl⟩ := (Nat.dvd_prime_pow (by norm_num : Nat.Prime 5)).mp hm5
  have ha2 : a < 2 ^ a := Nat.lt_two_pow a
  have hb2 : b < 5 ^ b := Nat.lt_pow_self (by norm_num) b
  have hle2 : 2 ^ a ≤ den := by
    rw [hden]
    exact Nat.le_mul_of_pos_right _ (pow_pos (by norm_num) b)
  have hle5 : 5 ^ b ≤ den := by
    rw [hden]
    exact Nat.le_mul_of_pos_left _ (pow_pos (by norm_num) a)
  refine ⟨max a b, by omega, ?_⟩
  have h10e : (10 : ℕ) ^ max a b = 2 ^ max a b * 5 ^ max a b := by rw [← Nat.mul_pow]
  rw [h10e, hden]
  exact Nat.mul_dvd_mul (pow_dvd_pow 2 (le_max_left a b)) (pow_dvd_pow 5 (le_max_right a b))

theorem solid_cons_dash (l : List Char) (hl : Solid l) : Solid ('-' :: l) := by
  refine ⟨by simp, ?_⟩
  intro c hc
  rw [List.mem_cons] at hc
  rcases hc with rfl | hc
  · decide
  · exact hl.2 c hc

/-- The defining property of the modelled `dtoa`: on a finite decimal value
the printer succeeds, yields a solid token, and the token re-parses to the
same value; additionally, for a non-negative value the token does not start
with a sign, so prefixing `-` parses to the negated value. -/
theorem dtoaQ_spec (q : ℚ) (m : ℤ) (k : ℕ) (hq : q = (m : ℚ) / 10 ^ k) :
    ∃ s, dtoaQ q = some s ∧ Solid s ∧ parseF64 s = some (.num q) ∧
      (0 ≤ q → parseF64 ('-' :: s) = some (.num (-q)) ∧ Solid ('-' :: s)) := by
  have hdvdZ := den_dvd_pow10 q m k hq
  have hdvdN : q.den ∣ 10 ^ k := by exact_mod_cast hdvdZ
  obtain ⟨e, hele, hdvd⟩ := exists_pow10_dvd q.den q.pos k hdvdN
  have hfind : ((List.range (q.den + 1)).find?
      (fun e => decide ((q.den : ℤ) ∣ 10 ^ e))).isSome := by
    apply List.find?_isSome.mpr
    refine ⟨e, List.mem_range.mpr (by omega), ?_⟩
    simp only [decide_eq_true_eq]
    exact_mod_cast hdvd
  obtain ⟨e0, he0⟩ := Option.isSome_iff_exists.mp hfind
  have hp0 : (q.den : ℤ) ∣ 10 ^ e0 := by
    have := List.find?_some he0
    simpa using this
  obtain ⟨t, ht⟩ := hp0
  have hden0 : (q.den : ℤ) ≠ 0 := by exact_mod_cast q.den_nz
  have hMt : q.num * 10 ^ e0 / (q.den : ℤ) = q.num * t := by
    rw [ht, show q.num * ((q.den : ℤ) * t) = (q.den : ℤ) * (q.num * t) by ring]
    exact Int.mul_ediv_cancel_left _ hden0
  have htpos : 0 < t := by
    by_contra hts
    push_neg at hts
    have h1 : (q.den : ℤ) * t ≤ 0 :=
      mul_nonpos_iff.mpr (Or.inl ⟨by positivity, hts⟩)
    rw [← ht] at h1
    have : (0 : ℤ) < 10 ^ e0 := by positivity
    omega
  have hval : ((q.num * t : ℤ) : ℚ) / 10 ^ e0 = q := by
    push_cast
    have h10 : ((10 : ℚ)) ^ e0 = (q.den : ℚ) * (t : ℚ) := by
      have := congrArg (fun z : ℤ => (z : ℚ)) ht
      push_cast at this
      exact this
    have ht0 : (t : ℚ) ≠ 0 := by
      intro h0
      have : t = 0 := by exact_mod_cast h0
      omega
    rw [h10, mul_div_mul_right _ _ ht0, Rat.num_div_den]
  have hcastabs : (((q.num * t).natAbs : ℚ)) = |((q.num * t : ℤ) : ℚ)| := by
    rw [Int.cast_natAbs]
    exact Int.cast_abs
  have hout : dtoaQ q =
      some (intChars (q.num * t) ++ 'e' :: '-' :: natChars e0) := by
    rw [dtoaQ, he0]
    show some (intChars (q.num * 10 ^ e0 / (q.den : ℤ)) ++ 'e' :: '-' :: natChars e0) = _
    rw [hMt]
  by_cases hMneg : q.num * t < 0
  · have hic : intChars (q.num * t) = '-' :: natChars (q.num * t).natAbs := by
      rw [intChars, if_pos hMneg]
    refine ⟨_, hout, ?_, ?_, ?_⟩
    · rw [hic, List.cons_append]
      exact solid_cons_dash _ (print_solid (q.num * t).natAbs e0)
    · rw [hic, List.cons_append, parseF64_print_neg (q.num * t).natAbs e0]
      have habs : (((q.num * t).natAbs : ℚ)) = -((q.num * t : ℤ) : ℚ) := by
        rw [hcastabs]
        exact abs_of_neg (by exact_mod_cast hMneg)
      rw [habs, neg_div, neg_neg, hval]
    · intro hq0
      have hnum : 0 ≤ q.num := Rat.num_nonneg.mpr hq0
      have : 0 ≤ q.num * t := by positivity
      omega
  · push_neg at hMneg
    have hic : intChars (q.num * t) = natChars (q.num * t).natAbs := by
      rw [intChars, if_neg (not_lt.mpr hMneg)]
    have habs : (((q.num * t).natAbs : ℚ)) = ((q.num * t : ℤ) : ℚ) := by
      rw [hcastabs]
      exact abs_of_nonneg (by exact_mod_cast hMneg)
    refine ⟨_, hout, ?_, ?_, ?_⟩
    · rw [hic]
      exact print_solid (q.num * t).natAbs e0
    · rw [hic, parseF64_print_pos (q.num * t).natAbs e0, habs, hval]
    · intro hq0
      constructor
      · rw [hic, parseF64_print_neg (q.num * t).natAbs e0, habs, hval]
      · rw [hic]
        exact solid_cons_dash _ (print_solid (q.num * t).natAbs e0)

/-- `dtoa` on a finite `f64` value: success, solidity and exact re-parse. -/
theorem dtoaF_spec (v : FVal) (hfin : FinF v) :
    ∃ s, dtoaF v = some s ∧ Solid s ∧ parseF64 s = some v ∧
      (∀ q : ℚ, v = .num q → 0 ≤ q →
        parseF64 ('-' :: s) = some (.num (-q)) ∧ Solid ('-' :: s)) := by
  obtain ⟨m, k, rfl⟩ := hfin
  obtain ⟨s, hs, hsolid, hparse, hneg⟩ := dtoaQ_spec ((m : ℚ) / 10 ^ k) m k rfl
  refine ⟨s, hs, hsolid, hparse, ?_⟩
  intro q hqeq hq0
  have : q = (m : ℚ) / 10 ^ k := by
    injection hqeq with h
    exact h.symm
  subst this
  exact hneg hq0

/-! ## Tokenizing the writer's lines -/

theorem spaces_ws (k : ℕ) : ∀ c ∈ spaces k, isWs c = true := by
  intro c hc
  rw [spaces] at hc
  rw [List.eq_of_mem_replicate hc]
  decide

/-- A written token: some run of spaces, then a solid token. -/
def PadOf (pt t : List Char) : Prop :=
  ∃ j, pt = spaces j ++ t

theorem splitWords_sepBy_pads (pts ts : List (List Char))
    (hrel : List.Forall₂ PadOf pts ts) (h : ∀ t ∈ ts, Solid t) :
    ∀ i, (splitWords i (sepBy [' '] pts)).map Prod.snd = ts := by
  induction hrel with
  | nil => simp [sepBy]
  | @cons pt t pts ts hpt hrest ih =>
    intro i
    obtain ⟨j, rfl⟩ := hpt
    have ht : Solid t := h t (by simp)
    cases hrest with
    | nil =>
      simp only [sepBy]
      rw [splitWords_ws_append (spaces j) (spaces_ws j) i t,
        splitWords_word_only _ t ht]
      simp
    | @cons pt2 t2 pts2 ts2 hpt2 hrest2 =>
      have hsep : sepBy [' '] ((spaces j ++ t) :: pt2 :: pts2) =
          spaces j ++ (t ++ ' ' :: sepBy [' '] (pt2 :: pts2)) := by
        rw [sepBy]
        · simp [List.append_assoc]
        · simp
      rw [hsep, splitWords_ws_append (spaces j) (spaces_ws j),
        splitWords_word_cons _ t ht ' ' (by decide),
        splitWords_ws_cons _ ' ' _ (by decide)]
      simp only [List.map_cons]
      rw [ih (fun u hu => h u (by simp [hu]))]

theorem wordsOf_pads_line (ln k : ℕ) (pts ts : List (List Char))
    (hrel : List.Forall₂ PadOf pts ts) (h : ∀ t ∈ ts, Solid t) :
    (wordsOf ⟨ln, 0, spaces k ++ sepBy [' '] pts⟩).map Sp.s = ts := by
  have hs : (wordsOf ⟨ln, 0, spaces k ++ sepBy [' '] pts⟩).map Sp.s =
      (splitWords 0 (spaces k ++ sepBy [' '] pts)).map Prod.snd := by
    simp [wordsOf]
  rw [hs, splitWords_ws_append (spaces k) (spaces_ws k),
    splitWords_sepBy_pads pts ts hrel h]

theorem forall₂_pad_self (ts : List (List Char)) :
    List.Forall₂ PadOf ts ts := by
  rw [List.forall₂_same]
  intro t _
  exact ⟨0, by simp [spaces]⟩

theorem forall₂_padLeft2 (ts : List (List Char)) :
    List.Forall₂ PadOf (ts.map padLeft2) ts := by
  rw [List.forall₂_map_left_iff]
  rw [List.forall₂_same]
  intro t _
  exact ⟨2 - t.length, rfl⟩

theorem wordsOf_plain_line (ln k : ℕ) (ts : List (List Char))
    (h : ∀ t ∈ ts, Solid t) :
    (wordsOf ⟨ln, 0, spaces k ++ sepBy [' '] ts⟩).map Sp.s = ts :=
  wordsOf_pads_line ln k ts ts (forall₂_pad_self ts) h

theorem map_s_cons_destruct (ws : List Sp) (t : List Char) (ts : List (List Char))
    (h : ws.map Sp.s = t :: ts) :
    ∃ w rest, ws = w :: rest ∧ w.s = t ∧ rest.map Sp.s = ts := by
  cases ws with
  | nil => simp at h
  | cons w rest =>
    simp only [List.map_cons, List.cons.injEq] at h
    exact ⟨w, rest, rfl, h.1, h.2⟩

theorem map_s_nil_destruct (ws : List Sp) (h : ws.map Sp.s = []) : ws = [] := by
  cases ws with
  | nil => rfl
  | cons w rest => simp at h

theorem next3F_of_sps (ln : ℕ) (msg : String) (ws : List Sp)
    (sa sb sc : List Char) (rest_s : List (List Char))
    (hmap : ws.map Sp.s = sa :: sb :: sc :: rest_s) (va vb vc : FVal)
    (ha : parseF64 sa = some va) (hb : parseF64 sb = some vb)
    (hc : parseF64 sc = some vc) :
    ∃ rest, next3F ln ws msg = .ok ((va, vb, vc), rest) ∧
      rest.map Sp.s = rest_s := by
  obtain ⟨w1, r1, rfl, hw1, h1⟩ := map_s_cons_destruct ws sa _ hmap
  obtain ⟨w2, r2, rfl, hw2, h2⟩ := map_s_cons_destruct r1 sb _ h1
  obtain ⟨w3, r3, rfl, hw3, h3⟩ := map_s_cons_destruct r2 sc _ h2
  refine ⟨r3, ?_, h3⟩
  rw [next3F]
  simp [next1F, nextWordErr, spParseF64, hw1, hw2, hw3, ha, hb, hc]

/-- The flag character of a boolean: parsed back by the `Logical` grammar. -/
theorem logical_tf (b : Bool) :
    logicalFromStr [if b then 'T' else 'F'] = some b := by
  cases b <;> decide

theorem next3B_of_sps (ln : ℕ) (msg : String) (ws : List Sp)
    (da db dc : Bool) (rest_s : List (List Char))
    (hmap : ws.map Sp.s = [if da then 'T' else 'F'] :: [if db then 'T' else 'F']
      :: [if dc then 'T' else 'F'] :: rest_s) :
    ∃ rest, next3B ln ws msg = .ok ((da, db, dc), rest) ∧
      rest.map Sp.s = rest_s := by
  obtain ⟨w1, r1, rfl, hw1, h1⟩ := map_s_cons_destruct ws _ _ hmap
  obtain ⟨w2, r2, rfl, hw2, h2⟩ := map_s_cons_destruct r1 _ _ h1
  obtain ⟨w3, r3, rfl, hw3, h3⟩ := map_s_cons_destruct r2 _ _ h2
  refine ⟨r3, ?_, h3⟩
  rw [next3B]
  simp [nextWordErr, spParseLogical, hw1, hw2, hw3, logical_tf]

/-! ## Document validity -/

/-- All three components finite. -/
def FinV3 (v : V3 FVal) : Prop :=
  FinF v.1 ∧ FinF v.2.1 ∧ FinF v.2.2

/-- The float stored in a scale line. -/
def ScaleLine.val : ScaleLine → FVal
  | .factor v => v
  | .volume v => v

/-- Modelled from the spec: the Document invariants of §3 (lengths,
`sum(counts) ≥ 1`, single-line comment) together with the data-model typing
facts of §3/§4.2 that in the Rust source live in the types and in
`RawPoscar::validate` of lib.rs, which is not among the repository's staged
files: the scale is a positive real; stored reals are finite binary64 values
(modelled as exact finite decimals, `FinF`); counts are `usize` values (below
2^64); species symbols satisfy the §4.2 symbol validity. -/
structure DocValid (p : RawPoscar) : Prop where
  comment_nl : '\n' ∉ p.comment
  comment_cr : '\r' ∉ p.comment
  scale_num : ∃ q : ℚ, p.scale.val = .num q ∧ 0 < q
  scale_fin : FinF p.scale.val
  lat_fin : FinV3 p.lattice_vectors.1 ∧ FinV3 p.lattice_vectors.2.1 ∧
    FinV3 p.lattice_vectors.2.2
  syms_valid : ∀ syms, p.group_symbols = some syms → ∀ s ∈ syms, isValidSymbol s = true
  syms_len : ∀ syms, p.group_symbols = some syms → syms.length = p.group_counts.length
  counts_ne : p.group_counts ≠ []
  counts_lt : ∀ c ∈ p.group_counts, c < 2 ^ 64
  n_pos : 1 ≤ p.group_counts.sum
  pos_len : p.positions.raw.length = p.group_counts.sum
  pos_fin : ∀ v ∈ p.positions.raw, FinV3 v
  dyn_len : ∀ ds, p.dynamics = some ds → ds.length = p.group_counts.sum
  vel_len : ∀ vs, p.velocities = some vs → vs.raw.length = p.group_counts.sum
  vel_fin : ∀ vs, p.velocities = some vs → ∀ v ∈ vs.raw, FinV3 v

/-! ## Round trip of the data rows -/

theorem by3F_spec (v : V3 FVal) (h : FinV3 v) :
    ∃ sa sb sc, by3F v = some (sepBy [' '] [sa, sb, sc]) ∧
      Solid sa ∧ Solid sb ∧ Solid sc ∧
      parseF64 sa = some v.1 ∧ parseF64 sb = some v.2.1 ∧
      parseF64 sc = some v.2.2 := by
  obtain ⟨sa, ha, hsa, hpa, _⟩ := dtoaF_spec v.1 h.1
  obtain ⟨sb, hb, hsb, hpb, _⟩ := dtoaF_spec v.2.1 h.2.1
  obtain ⟨sc', hc, hsc, hpc, _⟩ := dtoaF_spec v.2.2 h.2.2
  exact ⟨sa, sb, sc', by rw [by3F, ha, hb, hc]; rfl,
    hsa, hsb, hsc, hpa, hpb, hpc⟩

theorem sepBy_cons₂ (sep t : List Char) (l : List (List Char)) (h : l ≠ []) :
    sepBy sep (t :: l) = t ++ sep ++ sepBy sep l := by
  cases l with
  | nil => exact absurd rfl h
  | cons x xs => rfl

theorem sepBy_append_split (sep : List Char) (l1 l2 : List (List Char))
    (h1 : l1 ≠ []) (h2 : l2 ≠ []) :
    sepBy sep (l1 ++ l2) = sepBy sep l1 ++ sep ++ sepBy sep l2 := by
  induction l1 with
  | nil => exact absurd rfl h1
  | cons t ts ih =>
    cases ts with
    | nil =>
      rw [List.singleton_append, sepBy_cons₂ sep t l2 h2]
      rfl
    | cons t2 ts2 =>
      have hx : (t :: t2 :: ts2) ++ l2 = t :: ((t2 :: ts2) ++ l2) := rfl
      rw [hx, sepBy_cons₂ sep t _ (by simp), ih (by simp),
        sepBy_cons₂ sep t (t2 :: ts2) (by simp)]
      simp [List.append_assoc]

theorem trimEnd_decomp (l : List Char) :
    ∃ suf, l = trimEnd l ++ suf ∧ ∀ c ∈ suf, isWs c = true := by
  refine ⟨(l.reverse.takeWhile isWs).reverse, ?_, ?_⟩
  · rw [trimEnd]
    conv_lhs => rw [← List.reverse_reverse l,
      ← List.takeWhile_append_dropWhile (p := isWs) (l := l.reverse)]
    rw [List.reverse_append]
  · intro c hc
    rw [List.mem_reverse] at hc
    exact List.mem_takeWhile_imp hc

theorem blank_iff (l : List Char) :
    trimBoth l = [] ↔ ∀ c ∈ l, isWs c = true := by
  constructor
  · intro h c hc
    obtain ⟨suf, hdec, hsuf⟩ := trimEnd_decomp l
    rw [trimBoth, List.dropWhile_eq_nil_iff] at h
    rw [hdec, List.mem_append] at hc
    rcases hc with hc | hc
    · exact h c hc
    · exact hsuf c hc
  · intro hall
    rw [trimBoth]
    have hte : trimEnd l = [] := by
      rw [trimEnd, List.reverse_eq_nil_iff, List.dropWhile_eq_nil_iff]
      intro c hc
      exact hall c (List.mem_reverse.mp hc)
    rw [hte]
    rfl

theorem mem_sepBy_head (sep t : List Char) (ts : List (List Char)) (c : Char)
    (hc : c ∈ t) : c ∈ sepBy sep (t :: ts) := by
  cases ts with
  | nil => simpa [sepBy] using hc
  | cons t2 ts2 =>
    rw [sepBy]
    · simp [hc]
    · simp

theorem trimBoth_ne_of_solid_head (k : ℕ) (t : List Char) (ht : Solid t)
    (ts : List (List Char)) :
    trimBoth (spaces k ++ sepBy [' '] (t :: ts)) ≠ [] := by
  intro h
  have hall := (blank_iff _).mp h
  obtain ⟨c, hc⟩ : ∃ c, c ∈ t := by
    cases t with
    | nil => exact absurd rfl ht.1
    | cons a r => exact ⟨a, by simp⟩
  have : isWs c = true :=
    hall c (by rw [List.mem_append]; exact Or.inr (mem_sepBy_head [' '] t ts c hc))
  rw [ht.2 c hc] at this
  exact absurd this (by simp)

theorem dataLines_loops (cs : List (V3 FVal)) (h : ∀ v ∈ cs, FinV3 v) :
    ∃ lls, dataLines cs none = .ok lls ∧
      (∀ cur restL, posLoop false cs.length ⟨cur, lls ++ restL⟩ =
        .ok ((cs, []), ⟨cur + cs.length, restL⟩)) ∧
      (∀ cur restL, velLoop cs.length ⟨cur, lls ++ restL⟩ =
        .ok (cs, ⟨cur + cs.length, restL⟩)) := by
  induction cs with
  | nil =>
    refine ⟨[], rfl, ?_, ?_⟩ <;> intro cur restL <;>
      simp [posLoop, velLoop]
  | cons v cs ih =>
    obtain ⟨sa, sb, sc', hb, hsa, hsb, hsc, hpa, hpb, hpc⟩ :=
      by3F_spec v (h v (by simp))
    obtain ⟨lls, hlls, hpos, hvel⟩ := ih (fun u hu => h u (by simp [hu]))
    refine ⟨(spaces 2 ++ sepBy [' '] [sa, sb, sc']) :: lls, ?_, ?_, ?_⟩
    · rw [dataLines, hb, hlls]
      rfl
    · intro cur restL
      simp only [List.length_cons]
      rw [posLoop]
      simp only [List.cons_append, linesNext, except_ok_bind]
      obtain ⟨rest, hn3, hrest⟩ := next3F_of_sps cur "expected 3 coordinates" _
        sa sb sc' [] (wordsOf_plain_line cur 2 [sa, sb, sc']
          (by intro t htm; simp at htm; rcases htm with rfl | rfl | rfl <;>
            assumption)) v.1 v.2.1 v.2.2 hpa hpb hpc
      rw [show ((v.1, v.2.1, v.2.2) : V3 FVal) = v from rfl] at hn3
      rw [hn3]
      simp only [Bool.false_eq_true, if_false, except_ok_bind]
      rw [hpos (cur + 1) restL]
      have harith : cur + 1 + cs.length = cur + (cs.length + 1) := by omega
      simp [harith]
    · intro cur restL
      simp only [List.length_cons]
      rw [velLoop]
      simp only [List.cons_append, linesNext, except_ok_bind]
      obtain ⟨rest, hn3, hrest⟩ := next3F_of_sps cur "expected 3 coordinates" _
        sa sb sc' [] (wordsOf_plain_line cur 2 [sa, sb, sc']
          (by intro t htm; simp at htm; rcases htm with rfl | rfl | rfl <;>
            assumption)) v.1 v.2.1 v.2.2 hpa hpb hpc
      rw [show ((v.1, v.2.1, v.2.2) : V3 FVal) = v from rfl] at hn3
      rw [hn3]
      simp only [except_ok_bind]
      rw [hvel (cur + 1) restL]
      have harith : cur + 1 + cs.length = cur + (cs.length + 1) := by omega
      simp [harith]

theorem solid_tf (b : Bool) : Solid [if b then 'T' else 'F'] := by
  cases b <;> exact ⟨by decide, by decide⟩

theorem by3TF_eq (d : V3 Bool) : by3TF d = sepBy [' ']
    [[if d.1 then 'T' else 'F'], [if d.2.1 then 'T' else 'F'],
      [if d.2.2 then 'T' else 'F']] := rfl

theorem dataLines_posLoop_some (cs : List (V3 FVal)) (ds : List (V3 Bool))
    (h : ∀ v ∈ cs, FinV3 v) (hlen : ds.length = cs.length) :
    ∃ lls, dataLines cs (some ds) = .ok lls ∧
      ∀ cur restL, posLoop true cs.length ⟨cur, lls ++ restL⟩ =
        .ok ((cs, ds), ⟨cur + cs.length, restL⟩) := by
  induction cs generalizing ds with
  | nil =>
    cases ds with
    | nil =>
      refine ⟨[], rfl, ?_⟩
      intro cur restL
      simp [posLoop]
    | cons d ds' => simp at hlen
  | cons v cs ih =>
    cases ds with
    | nil => simp at hlen
    | cons d ds' =>
      have hlen' : ds'.length = cs.length := by simpa using hlen
      obtain ⟨sa, sb, sc', hb, hsa, hsb, hsc, hpa, hpb, hpc⟩ :=
        by3F_spec v (h v (by simp))
      obtain ⟨lls, hlls, hpos⟩ := ih ds' (fun u hu => h u (by simp [hu])) hlen'
      have hline : spaces 2 ++ sepBy [' '] [sa, sb, sc'] ++ ' ' :: by3TF d =
          spaces 2 ++ sepBy [' '] [sa, sb, sc', [if d.1 then 'T' else 'F'],
            [if d.2.1 then 'T' else 'F'], [if d.2.2 then 'T' else 'F']] := by
        rw [show ([sa, sb, sc', [if d.1 then 'T' else 'F'],
            [if d.2.1 then 'T' else 'F'], [if d.2.2 then 'T' else 'F']] :
              List (List Char)) =
          [sa, sb, sc'] ++ [[if d.1 then 'T' else 'F'],
            [if d.2.1 then 'T' else 'F'], [if d.2.2 then 'T' else 'F']] from rfl,
          sepBy_append_split [' '] _ _ (by simp) (by simp), by3TF_eq]
        simp [List.append_assoc]
      refine ⟨(spaces 2 ++ sepBy [' '] [sa, sb, sc'] ++ ' ' :: by3TF d) :: lls,
        ?_, ?_⟩
      · rw [dataLines, hb, hlls]
        rfl
      · intro cur restL
        simp only [List.length_cons]
        rw [posLoop]
        simp only [List.cons_append, linesNext, except_ok_bind]
        have hws : (wordsOf ⟨cur, 0, spaces 2 ++ sepBy [' '] [sa, sb, sc']
            ++ ' ' :: by3TF d⟩).map Sp.s =
            [sa, sb, sc', [if d.1 then 'T' else 'F'],
              [if d.2.1 then 'T' else 'F'], [if d.2.2 then 'T' else 'F']] := by
          rw [show (⟨cur, 0, spaces 2 ++ sepBy [' '] [sa, sb, sc'] ++
              ' ' :: by3TF d⟩ : Sp) = ⟨cur, 0, spaces 2 ++ sepBy [' ']
              [sa, sb, sc', [if d.1 then 'T' else 'F'],
                [if d.2.1 then 'T' else 'F'], [if d.2.2 then 'T' else 'F']]⟩ from
            by rw [hline]]
          exact wordsOf_plain_line cur 2 _ (by
            intro t htm
            simp only [List.mem_cons, List.not_mem_nil, or_false] at htm
            rcases htm with rfl | rfl | rfl | rfl | rfl | rfl
            · exact hsa
            · exact hsb
            · exact hsc
            · exact solid_tf d.1
            · exact solid_tf d.2.1
            · exact solid_tf d.2.2)
        obtain ⟨rest3, hn3, hrest3⟩ := next3F_of_sps cur "expected 3 coordinates"
          _ sa sb sc' _ hws v.1 v.2.1 v.2.2 hpa hpb hpc
        rw [show ((v.1, v.2.1, v.2.2) : V3 FVal) = v from rfl] at hn3
        rw [hn3]
        simp only [if_true, except_ok_bind]
        obtain ⟨rest4, hn4, _⟩ := next3B_of_sps cur "expected 3 boolean flags"
          rest3 d.1 d.2.1 d.2.2 [] hrest3
        rw [show ((d.1, d.2.1, d.2.2) : V3 Bool) = d from rfl] at hn4
        rw [hn4]
        simp only [except_ok_bind]
        rw [hpos (cur + 1) restL]
        have harith : cur + 1 + cs.length = cur + (cs.length + 1) := by omega
        simp [harith]

theorem dropWhile_append_stop {α : Type} (p : α → Bool) (A B : List α)
    (hB : ∀ h : B ≠ [], p (B.head h) = false) :
    List.dropWhile p (A ++ B) = List.dropWhile p A ++ B := by
  induction A with
  | nil =>
    cases B with
    | nil => rfl
    | cons b bs =>
      have hb := hB (by simp)
      rw [List.head_cons] at hb
      simp [List.dropWhile_cons, hb]
  | cons a A ih =>
    by_cases ha : p a = true
    · simp [List.dropWhile_cons, ha, ih]
    · simp [List.dropWhile_cons, ha]

theorem dropWhile_ws_prefix (pre l : List Char)
    (hpre : ∀ c ∈ pre, isWs c = true) :
    List.dropWhile isWs (pre ++ l) = List.dropWhile isWs l := by
  induction pre with
  | nil => simp
  | cons a A ih =>
    have := hpre a (by simp)
    simp [List.dropWhile_cons, this, ih (fun c hc => hpre c (by simp [hc]))]

theorem trimBoth_struct (pre : List Char) (hpre : ∀ c ∈ pre, isWs c = true)
    (c : Char) (hc : isWs c = false) (rest : List Char) :
    ∃ r, trimBoth (pre ++ c :: rest) = c :: r := by
  have hrev : (pre ++ c :: rest).reverse = rest.reverse ++ c :: pre.reverse := by
    simp
  have hdw : List.dropWhile isWs (rest.reverse ++ c :: pre.reverse) =
      List.dropWhile isWs rest.reverse ++ c :: pre.reverse := by
    apply dropWhile_append_stop
    intro _
    rw [List.head_cons]
    exact hc
  have hte : trimEnd (pre ++ c :: rest) =
      pre ++ c :: (List.dropWhile isWs rest.reverse).reverse := by
    rw [trimEnd, hrev, hdw]
    simp
  rw [trimBoth, hte, dropWhile_ws_prefix pre _ hpre]
  refine ⟨(List.dropWhile isWs rest.reverse).reverse, ?_⟩
  simp [List.dropWhile_cons, hc]

theorem trimBoth_headD (pre : List Char) (hpre : ∀ c ∈ pre, isWs c = true)
    (c : Char) (hc : isWs c = false) (rest : List Char) :
    (trimBoth (pre ++ c :: rest)).headD ' ' = c := by
  obtain ⟨r, hr⟩ := trimBoth_struct pre hpre c hc rest
  rw [hr]
  rfl

/-! ## Printed primitives re-parse -/

theorem isValidSymbol_solid (s : List Char) (h : isValidSymbol s = true) :
    Solid s := by
  cases s with
  | nil => simp [isValidSymbol] at h
  | cons c r =>
    rw [isValidSymbol, Bool.and_eq_true, List.all_eq_true] at h
    exact ⟨by simp, fun u hu => by
      have := h.1 u hu
      simpa using this⟩

theorem unsignedFromStr_natChars (c : ℕ) (h : c < 2 ^ 64) :
    unsignedFromStr (natChars c) = some c := by
  obtain ⟨c0, D, hD⟩ : ∃ c0 D, natChars c = c0 :: D := by
    cases hx : natChars c with
    | nil => exact absurd hx (natChars_ne_nil c)
    | cons c0 D => exact ⟨c0, D, rfl⟩
  have hdig : isDigitC c0 = true := natChars_digits c c0 (by rw [hD]; simp)
  have hplus : c0 ≠ '+' := (digit_char_ne c0 hdig).1
  have hcond : ¬ ((c0 :: D).head? = some '+') := by
    simp only [List.head?_cons]
    intro hx
    exact hplus (Option.some.inj hx)
  have hall : (c0 :: D).all isDigitC = true := by
    rw [← hD]
    exact List.all_eq_true.mpr (fun u hu => natChars_digits c u hu)
  have hval : digitsVal (c0 :: D) = c := by rw [← hD, digitsVal_natChars]
  rw [unsignedFromStr, hD, if_neg hcond, stdU64FromStr]
  simp only [if_neg hcond]
  rw [if_pos ⟨by simp, hall, by rw [hval]; exact h⟩, hval]

theorem parseCounts_printed (ws : List Sp) (counts : List ℕ)
    (hmap : ws.map Sp.s = counts.map natChars)
    (hlt : ∀ c ∈ counts, c < 2 ^ 64) :
    parseCounts ws = counts := by
  induction counts generalizing ws with
  | nil =>
    have : ws = [] := by
      cases ws with
      | nil => rfl
      | cons w r => simp at hmap
    subst this
    rfl
  | cons c counts ih =>
    rw [List.map_cons] at hmap
    obtain ⟨w, rest, rfl, hw, hrest⟩ := map_s_cons_destruct ws _ _ hmap
    rw [parseCounts]
    simp only [List.map_cons, hw,
      unsignedFromStr_natChars c (hlt c (by simp)), List.takeWhile_cons]
    simp only [Option.isSome_some, if_true]
    have := ih rest hrest (fun u hu => hlt u (by simp [hu]))
    rw [parseCounts] at this
    simp [List.filterMap_cons, this]

/-! ## Claims about the primitive sub-grammars -/

/-- C7.  Boolean-literal grammar: parsing a token as a `Logical` succeeds iff,
after an optional leading dot, the next character is t/T (true) or f/F
(false); everything after that first letter is ignored (the result depends
only on the head of `stripDot input`); any other leading letter, or an empty
remainder after the optional dot, fails.  In particular ".T", "T", ".TRUE.",
"t" give true; ".F", "F" give false; "X" fails. -/
theorem claim_C7_logical_grammar :
    (∀ l : List Char, logicalFromStr l = some true ↔
      ((stripDot l).head? = some 't' ∨ (stripDot l).head? = some 'T')) ∧
    (∀ l : List Char, logicalFromStr l = some false ↔
      ((stripDot l).head? = some 'f' ∨ (stripDot l).head? = some 'F')) ∧
    logicalFromStr (String.data ".T") = some true ∧
    logicalFromStr (String.data "T") = some true ∧
    logicalFromStr (String.data ".TRUE.") = some true ∧
    logicalFromStr (String.data "t") = some true ∧
    logicalFromStr (String.data ".F") = some false ∧
    logicalFromStr (String.data "F") = some false ∧
    logicalFromStr (String.data "X") = none := by
  refine ⟨?_, ?_, by decide, by decide, by decide, by decide, by decide,
    by decide, by decide⟩
  · intro l
    cases h : (stripDot l).head? with
    | none => simp [logicalFromStr, h]
    | some c =>
      simp only [logicalFromStr, h]
      by_cases ht : c = 't' ∨ c = 'T'
      · rcases ht with rfl | rfl <;> decide
      · by_cases hf : c = 'f' ∨ c = 'F'
        · rcases hf with rfl | rfl <;> decide
        · rw [if_neg ht, if_neg hf]
          exact iff_of_false (by simp) (by simpa using ht)
  · intro l
    cases h : (stripDot l).head? with
    | none => simp [logicalFromStr, h]
    | some c =>
      simp only [logicalFromStr, h]
      by_cases ht : c = 't' ∨ c = 'T'
      · rcases ht with rfl | rfl <;> decide
      · by_cases hf : c = 'f' ∨ c = 'F'
        · rcases hf with rfl | rfl <;> decide
        · rw [if_neg ht, if_neg hf]
          exact iff_of_false (by simp) (by simpa using hf)

/-- C8.  Strict unsigned grammar: `Unsigned` parsing behaves exactly like the
standard `u64` grammar except that any input starting with `+` is rejected;
"5" parses to 5 while "+5" fails even though the standard grammar accepts
it. -/
theorem claim_C8_unsigned_grammar :
    (∀ l : List Char, l.head? = some '+' → unsignedFromStr l = none) ∧
    (∀ l : List Char, l.head? ≠ some '+' → unsignedFromStr l = stdU64FromStr l) ∧
    unsignedFromStr (String.data "5") = some 5 ∧
    unsignedFromStr (String.data "+5") = none ∧
    stdU64FromStr (String.data "+5") = some 5 := by
  refine ⟨?_, ?_, by decide, by decide, by decide⟩ <;> intro l h <;>
    simp [unsignedFromStr, h]

/-- Witness for C7 at concrete inputs, via both directions of the
characterization. -/
theorem claim_C7_logical_grammar_witness :
    logicalFromStr (String.data ".True and junk") = some true :=
  (claim_C7_logical_grammar.1 (String.data ".True and junk")).mpr (by decide)

/-- Witness for C8 at concrete inputs. -/
theorem claim_C8_unsigned_grammar_witness :
    unsignedFromStr (String.data "+7") = none ∧
    unsignedFromStr (String.data "7") = stdU64FromStr (String.data "7") :=
  ⟨claim_C8_unsigned_grammar.1 (String.data "+7") (by decide),
   claim_C8_unsigned_grammar.2.1 (String.data "7") (by decide)⟩

/-! ## Blank lines, the classifier, and `expect_blank_until_eof` -/

theorem trimEnd_eq_nil_iff (l : List Char) :
    trimEnd l = [] ↔ ∀ c ∈ l, isWs c = true := by
  rw [trimEnd, List.reverse_eq_nil_iff, List.dropWhile_eq_nil_iff]
  simp

theorem classify_blank (l : List Char) (h : ∀ c ∈ l, isWs c = true) :
    classifyCoordLine l = .emptyOrWhitespace := by
  rw [classifyCoordLine, (trimEnd_eq_nil_iff l).mpr h]

theorem trimBoth_blank (l : List Char) (h : ∀ c ∈ l, isWs c = true) :
    trimBoth l = [] := by
  rw [trimBoth, (trimEnd_eq_nil_iff l).mpr h]
  rfl

theorem splitWords_all_ws (i : ℕ) (l : List Char) (h : ∀ c ∈ l, isWs c = true) :
    splitWords i l = [] := by
  have := splitWords_ws_append l h i []
  simpa using this

theorem expectBlank_all_blank (cur : ℕ) (ls : List (List Char))
    (h : ∀ l ∈ ls, ∀ c ∈ l, isWs c = true) :
    expectBlank cur ls = .ok ⟨cur + ls.length, []⟩ := by
  induction ls generalizing cur with
  | nil => simp [expectBlank]
  | cons l ls ih =>
    rw [expectBlank]
    have hw : wordsOf ⟨cur, 0, l⟩ = [] := by
      simp [wordsOf, splitWords_all_ws 0 l (h l (by simp))]
    rw [hw]
    rw [ih (cur + 1) (fun m hm => h m (by simp [hm]))]
    simp +arith

theorem expectBlank_junk (cur : ℕ) (pre : List (List Char))
    (hpre : ∀ l ∈ pre, ∀ c ∈ l, isWs c = true)
    (junk : List Char) (col : ℕ) (w : List Char) (wrest : List (ℕ × List Char))
    (hj : splitWords 0 junk = (col, w) :: wrest) (rest : List (List Char)) :
    expectBlank cur (pre ++ junk :: rest) =
      .error ⟨.generic "expected end of file", some (cur + pre.length), some col⟩ := by
  induction pre generalizing cur with
  | nil =>
    rw [List.nil_append, expectBlank]
    have hw : wordsOf ⟨cur, 0, junk⟩ = ⟨cur, col, w⟩ ::
        wrest.map (fun p => ⟨cur, p.1, p.2⟩) := by
      simp [wordsOf, hj]
    rw [hw]
    simp [Sp.err]
  | cons l pre ih =>
    rw [List.cons_append, expectBlank]
    have hw : wordsOf ⟨cur, 0, l⟩ = [] := by
      simp [wordsOf, splitWords_all_ws 0 l (hpre l (by simp))]
    rw [hw, ih (cur + 1) (fun m hm => hpre m (by simp [hm]))]
    simp +arith

/-! ## Claims about the velocity-block decision procedure -/

/-- C3.  Required-state EOF is fatal: when the line after the position data
is non-blank (classified as anything but EmptyOrWhitespace) and the input
ends there, the velocity block fails with "unexpected end of file" (tagged at
the line where content was expected) instead of yielding a document without
velocities. -/
theorem claim_C3_required_eof (n cur : ℕ) (l : List Char)
    (h : classifyCoordLine l ≠ .emptyOrWhitespace) :
    parseTail n ⟨cur, [l]⟩ =
      .error ⟨.generic "unexpected end of file", some (cur + 1), none⟩ := by
  cases hc : classifyCoordLine l <;>
    simp_all [parseTail, linesNext]

/-- Witness for C3: a Cartesian control line with nothing after it. -/
theorem claim_C3_required_eof_witness :
    parseTail 1 ⟨9, [String.data "Cartesian"]⟩ =
      .error ⟨.generic "unexpected end of file", some 10, none⟩ :=
  claim_C3_required_eof 1 9 (String.data "Cartesian") (by decide)

/-- C10.  When the line after the position data is blank (presence state
Possible) and the following line is non-blank, the velocity block — if it
parses at all — is always tagged Direct (fractional), irrespective of the
content of that non-blank line; the blank line alone fixes the velocity
coordinate system. -/
theorem claim_C10_velocity_always_direct (n cur : ℕ) (l1 l2 : List Char)
    (more : List (List Char))
    (h1 : classifyCoordLine l1 = .emptyOrWhitespace)
    (h2 : trimBoth l2 ≠ [])
    (hok : (parseTail n ⟨cur, l1 :: l2 :: more⟩).isOk = true) :
    ∃ vs st', parseTail n ⟨cur, l1 :: l2 :: more⟩ =
      .ok (some (Coords.frac vs), st') := by
  rw [parseTail] at hok ⊢
  simp only [linesNext, h1] at hok ⊢
  cases ht : trimBoth l2 with
  | cons c r =>
    simp only [ht] at hok ⊢
    cases hv : next3F (cur + 1) (wordsOf ⟨cur + 1, 0, l2⟩) "expected 3 coordinates" with
    | error e => simp [hv] at hok
    | ok p =>
      cases hl : velLoop (n - 1) ⟨cur + 1 + 1, more⟩ with
      | error e => simp [hv, hl] at hok
      | ok q => exact ⟨p.1 :: q.1, q.2, by simp [hv, hl]⟩
  | nil => exact absurd ht h2

/-- Witness for C10: blank separator line, then a velocity row. -/
theorem claim_C10_velocity_always_direct_witness :
    ∃ vs st', parseTail 1 ⟨9, [String.data " ", String.data "1 2 3"]⟩ =
      .ok (some (Coords.frac vs), st') :=
  claim_C10_velocity_always_direct 1 9 (String.data " ") (String.data "1 2 3")
    [] (by decide) (by decide) (by decide)

/-- C2.  Velocity-absence resolution after the `n` position lines:
(a) input ends immediately — no velocities;
(b) exactly one trailing blank (all-whitespace) line — no velocities;
(c) after two blank lines (and possibly further blank lines `pre`), a line
holding a non-whitespace token makes parsing fail with "expected end of
file" at that token's line and column. -/
theorem claim_C2_velocity_absence :
    (∀ n cur : ℕ, parseTail n ⟨cur, []⟩ = .ok (none, ⟨cur, []⟩)) ∧
    (∀ (n cur : ℕ) (b : List Char), (∀ c ∈ b, isWs c = true) →
      parseTail n ⟨cur, [b]⟩ = .ok (none, ⟨cur + 1, []⟩)) ∧
    (∀ (n cur : ℕ) (b1 b2 : List Char) (pre : List (List Char))
      (junk : List Char) (col : ℕ) (w : List Char) (wrest : List (ℕ × List Char))
      (rest : List (List Char)),
      (∀ c ∈ b1, isWs c = true) → (∀ c ∈ b2, isWs c = true) →
      (∀ l ∈ pre, ∀ c ∈ l, isWs c = true) →
      splitWords 0 junk = (col, w) :: wrest →
      parseTail n ⟨cur, b1 :: b2 :: (pre ++ junk :: rest)⟩ =
        .error ⟨.generic "expected end of file", some (cur + 2 + pre.length), some col⟩) := by
  refine ⟨?_, ?_, ?_⟩
  · intro n cur
    rw [parseTail]
    simp [linesNext]
  · intro n cur b hb
    rw [parseTail]
    simp [linesNext, classify_blank b hb]
  · intro n cur b1 b2 pre junk col w wrest rest hb1 hb2 hpre hj
    rw [parseTail]
    simp only [linesNext, classify_blank b1 hb1, trimBoth_blank b2 hb2]
    rw [expectBlankSt, expectBlank_junk (cur + 1 + 1) pre hpre junk col w wrest hj rest]
    simp +arith

/-- The second word of the scale line, when present, does not parse as a
float (and is therefore accepted as trailing comment). -/
def noSecondFloat (rest : List Sp) : Bool :=
  match rest with
  | [] => true
  | w2 :: _ => (parseF64 w2.s).isNone

/-- C5.  Scale-line semantics: the first token is parsed as a real number;
negative gives a volume-target holding the absolute value, positive gives a
multiplicative factor, zero and NaN are fatal at that token's position; a
second token that also parses as a float is fatal ("too many floats..."),
while a non-float second token is accepted as comment (covered by the
`noSecondFloat` hypothesis of the success cases). -/
theorem claim_C5_scale_semantics :
    (∀ (line w : Sp) (rest : List Sp) (q : ℚ),
      wordsOf line = w :: rest → parseF64 w.s = some (.num q) → q < 0 →
      noSecondFloat rest = true →
      parseScale line = .ok (.volume (.num |q|))) ∧
    (∀ (line w : Sp) (rest : List Sp) (q : ℚ),
      wordsOf line = w :: rest → parseF64 w.s = some (.num q) → 0 < q →
      noSecondFloat rest = true →
      parseScale line = .ok (.factor (.num q))) ∧
    (∀ (line w : Sp) (rest : List Sp) (q : ℚ),
      wordsOf line = w :: rest → parseF64 w.s = some (.num q) → q = 0 →
      parseScale line = .error (w.err (.generic "scale cannot be zero"))) ∧
    (∀ (line w : Sp) (rest : List Sp),
      wordsOf line = w :: rest → parseF64 w.s = some .nan →
      parseScale line = .error (w.err (.generic "scale cannot be nan"))) ∧
    (∀ (line w w2 : Sp) (rest2 : List Sp) (q : ℚ) (v : FVal),
      wordsOf line = w :: w2 :: rest2 → parseF64 w.s = some (.num q) → q ≠ 0 →
      parseF64 w2.s = some v →
      parseScale line =
        .error (w2.err (.generic "too many floats on scale line (expected just one)"))) ∧
    parseScale ⟨1, 0, String.data "-27.0"⟩ = .ok (.volume (.num 27)) ∧
    parseScale ⟨1, 0, String.data "1.0 2.0"⟩ =
      .error ⟨.generic "too many floats on scale line (expected just one)", some 1, some 4⟩ := by
  refine ⟨?_, ?_, ?_, ?_, ?_, by decide, by decide⟩
  · intro line w rest q hw hq hneg h2
    rw [parseScale, hw]
    simp only [nextWordErr, except_ok_bind, spParseF64, hq, FVal.cmp0, FVal.neg,
      if_pos hneg]
    cases rest with
    | nil => simp [abs_of_neg hneg]
    | cons w2 r2 =>
      simp only [noSecondFloat, Option.isNone_iff_eq_none] at h2
      simp [h2, abs_of_neg hneg]
  · intro line w rest q hw hq hpos h2
    have h0 : ¬ q < 0 := by exact not_lt.mpr (le_of_lt hpos)
    have h0e : ¬ q = 0 := by exact ne_of_gt hpos
    rw [parseScale, hw]
    simp only [nextWordErr, except_ok_bind, spParseF64, hq, FVal.cmp0,
      if_neg h0, if_neg h0e]
    cases rest with
    | nil => simp
    | cons w2 r2 =>
      simp only [noSecondFloat, Option.isNone_iff_eq_none] at h2
      simp [h2]
  · intro line w rest q hw hq h0
    rw [parseScale, hw]
    simp [nextWordErr, spParseF64, hq, FVal.cmp0, h0]
  · intro line w rest hw hq
    rw [parseScale, hw]
    simp [nextWordErr, spParseF64, hq, FVal.cmp0]
  · intro line w w2 rest2 q v hw hq h0 hv2
    rw [parseScale, hw]
    by_cases hneg : q < 0 <;>
      simp [nextWordErr, spParseF64, hq, FVal.cmp0, hneg, h0, hv2]

/-- Witness for C5: the negative-scale case applied at a concrete line with a
non-float trailing comment. -/
theorem claim_C5_scale_semantics_witness :
    parseScale ⟨1, 0, String.data "-27.0 junk"⟩ = .ok (.volume (.num |(-27 : ℚ)|)) :=
  claim_C5_scale_semantics.1 ⟨1, 0, String.data "-27.0 junk"⟩
    ⟨1, 0, String.data "-27.0"⟩ [⟨1, 6, String.data "junk"⟩] (-27)
    (by decide) (by decide) (by decide) (by decide)

theorem mem_wordsOf_s (sp u : Sp) (hu : u ∈ wordsOf sp) : u.s ∈ wordStrs sp.s := by
  simp only [wordsOf, List.mem_map] at hu
  obtain ⟨p, hp, rfl⟩ := hu
  simp only [wordStrs, List.mem_map]
  exact ⟨p, hp, rfl⟩

theorem mapM_valid_symbols (ws : List Sp)
    (h : ∀ w ∈ ws, isValidSymbol w.s = true) :
    ws.mapM (fun w =>
        if isValidSymbol w.s then pure w.s
        else (.error (w.err (.generic "invalid symbol")) : Except PErr (List Char))) =
      .ok (ws.map Sp.s) := by
  induction ws with
  | nil => rfl
  | cons w ws ih =>
    rw [List.mapM_cons, ih (fun u hu => h u (by simp [hu]))]
    simp [h w (by simp)]

/-- C6.  Species/counts error contract: with a species line present (first
trimmed byte not a digit) and all symbols valid, a mismatch between the
number of symbols and the number of successfully parsed count tokens fails
with "Inconsistent number of counts"; independently, counts summing to zero
fail with "There must be at least one atom." (in both the species and the
no-species branch); the example "Si Si" / "1 1" succeeds with
species=["Si","Si"], counts=[1,1], n=2. -/
theorem claim_C6_species_counts :
    (∀ (cur : ℕ) (symsLine countsLine : List Char) (rest : List (List Char)),
      wordStrs symsLine ≠ [] →
      isDigitC ((trimBoth symsLine).headD ' ') = false →
      (∀ w ∈ wordStrs symsLine, isValidSymbol w = true) →
      (wordStrs symsLine).length ≠ (parseCounts (wordsOf ⟨cur + 1, 0, countsLine⟩)).length →
      parseSymCounts ⟨cur, symsLine :: countsLine :: rest⟩ =
        .error ⟨.generic "Inconsistent number of counts", some (cur + 1), some 0⟩) ∧
    (∀ (cur : ℕ) (symsLine countsLine : List Char) (rest : List (List Char)),
      wordStrs symsLine ≠ [] →
      isDigitC ((trimBoth symsLine).headD ' ') = false →
      (∀ w ∈ wordStrs symsLine, isValidSymbol w = true) →
      (wordStrs symsLine).length = (parseCounts (wordsOf ⟨cur + 1, 0, countsLine⟩)).length →
      (parseCounts (wordsOf ⟨cur + 1, 0, countsLine⟩)).sum = 0 →
      parseSymCounts ⟨cur, symsLine :: countsLine :: rest⟩ =
        .error ⟨.generic "There must be at least one atom.", some (cur + 1), some 0⟩) ∧
    (∀ (cur : ℕ) (countsLine : List Char) (rest : List (List Char)),
      wordStrs countsLine ≠ [] →
      isDigitC ((trimBoth countsLine).headD ' ') = true →
      (parseCounts (wordsOf ⟨cur, 0, countsLine⟩)).sum = 0 →
      parseSymCounts ⟨cur, countsLine :: rest⟩ =
        .error ⟨.generic "There must be at least one atom.", some cur, some 0⟩) ∧
    parseSymCounts ⟨0, [String.data "Si Si", String.data "1 1"]⟩ =
      .ok ((some [String.data "Si", String.data "Si"], [1, 1], 2), ⟨2, []⟩) := by
  have hwords : ∀ (l : List Char) (ln : ℕ), wordsOf ⟨ln, 0, l⟩ = [] ↔ wordStrs l = [] := by
    intro l ln
    simp [wordsOf, wordStrs]
  refine ⟨?_, ?_, ?_, by decide⟩
  · intro cur symsLine countsLine rest hne hdig hvalid hlen
    rw [parseSymCounts]
    simp only [linesNext, except_ok_bind]
    cases hw : wordsOf ⟨cur, 0, symsLine⟩ with
    | nil => exact absurd ((hwords symsLine cur).mp hw) hne
    | cons w ws =>
      have hv2 : ∀ u ∈ wordsOf ⟨cur, 0, symsLine⟩, isValidSymbol u.s = true :=
        fun u hu => hvalid u.s (mem_wordsOf_s ⟨cur, 0, symsLine⟩ u hu)
      rw [hw] at hv2
      have hmap := mapM_valid_symbols (w :: ws) hv2
      have hs : (w :: ws).map Sp.s = wordStrs symsLine := by
        rw [← hw]; simp [wordsOf, wordStrs]
      simp only [nextWordErr, except_ok_bind, hdig, Bool.false_eq_true, if_false,
        hmap, hs, linesNext]
      simp [checkSyms, hlen, Sp.err]
  · intro cur symsLine countsLine rest hne hdig hvalid hlen hsum
    rw [parseSymCounts]
    simp only [linesNext, except_ok_bind]
    cases hw : wordsOf ⟨cur, 0, symsLine⟩ with
    | nil => exact absurd ((hwords symsLine cur).mp hw) hne
    | cons w ws =>
      have hv2 : ∀ u ∈ wordsOf ⟨cur, 0, symsLine⟩, isValidSymbol u.s = true :=
        fun u hu => hvalid u.s (mem_wordsOf_s ⟨cur, 0, symsLine⟩ u hu)
      rw [hw] at hv2
      have hmap := mapM_valid_symbols (w :: ws) hv2
      have hs : (w :: ws).map Sp.s = wordStrs symsLine := by
        rw [← hw]; simp [wordsOf, wordStrs]
      simp only [nextWordErr, except_ok_bind, hdig, Bool.false_eq_true, if_false,
        hmap, hs, linesNext]
      simp [checkSyms, hlen, hsum, Sp.err]
  · intro cur countsLine rest hne hdig hsum
    rw [parseSymCounts]
    simp only [linesNext, except_ok_bind]
    cases hw : wordsOf ⟨cur, 0, countsLine⟩ with
    | nil => exact absurd ((hwords countsLine cur).mp hw) hne
    | cons w ws =>
      simp only [hw, nextWordErr, except_ok_bind, hdig, if_true]
      simp [checkSyms, hsum, Sp.err]

/-! ## Shape lemmas: what a successful section parse guarantees -/

theorem parseSymCounts_ok (st : St) (syms : Option (List (List Char)))
    (counts : List ℕ) (n : ℕ) (st' : St)
    (h : parseSymCounts st = .ok ((syms, counts, n), st')) :
    n = counts.sum ∧ 1 ≤ n ∧ (∀ s, syms = some s → s.length = counts.length) := by
  rw [parseSymCounts] at h
  cases hl : linesNext st with
  | error e => rw [hl] at h; exact absurd h (by simp)
  | ok pr =>
    obtain ⟨line, st1⟩ := pr
    rw [hl] at h
    simp only [except_ok_bind] at h
    cases hw : wordsOf line with
    | nil => rw [hw] at h; exact absurd h (by simp [nextWordErr])
    | cons w ws =>
      rw [hw] at h
      simp only [nextWordErr, except_ok_bind] at h
      by_cases hd : isDigitC ((trimBoth line.s).headD ' ') = true
      · simp only [hd, if_true, except_pure_eq_ok, except_ok_bind, checkSyms] at h
        by_cases hz : (parseCounts (wordsOf line)).sum = 0
        · rw [if_pos hz] at h
          exact absurd h (by simp)
        · rw [if_neg hz] at h
          simp only [Except.ok.injEq, Prod.mk.injEq] at h
          obtain ⟨⟨h1, h2, h3⟩, _⟩ := h
          subst h1 h2 h3
          exact ⟨rfl, by omega, by simp⟩
      · simp only [hd, Bool.false_eq_true, if_false] at h
        cases hm : (wordsOf line).mapM (fun w =>
            if isValidSymbol w.s then pure w.s
            else (.error (w.err (.generic "invalid symbol")) : Except PErr (List Char))) with
        | error e =>
          rw [hw] at hm
          rw [hm] at h
          exact absurd h (by simp)
        | ok symlist =>
          rw [hw] at hm
          rw [hm] at h
          simp only [except_ok_bind] at h
          cases hl2 : linesNext st1 with
          | error e => rw [hl2] at h; exact absurd h (by simp)
          | ok pr2 =>
            obtain ⟨cline, st2⟩ := pr2
            rw [hl2] at h
            simp only [except_ok_bind, except_pure_eq_ok] at h
            by_cases hlen : symlist.length ≠ (parseCounts (wordsOf cline)).length
            · have hcs : checkSyms (some symlist) cline (parseCounts (wordsOf cline)) =
                  .error (cline.err (.generic "Inconsistent number of counts")) := by
                simp [checkSyms, hlen]
              rw [hcs] at h
              simp only [except_error_bind] at h
              exact absurd h (by simp)
            · have hcs : checkSyms (some symlist) cline (parseCounts (wordsOf cline)) =
                  .ok () := by
                simp [checkSyms, hlen]
              rw [hcs] at h
              simp only [except_ok_bind] at h
              push_neg at hlen
              by_cases hz : (parseCounts (wordsOf cline)).sum = 0
              · rw [if_pos hz] at h
                exact absurd h (by simp)
              · rw [if_neg hz] at h
                simp only [Except.ok.injEq, Prod.mk.injEq] at h
                obtain ⟨⟨h1, h2, h3⟩, _⟩ := h
                subst h1 h2 h3
                refine ⟨rfl, by omega, ?_⟩
                intro s hs
                obtain rfl : symlist = s := by simpa using hs
                exact hlen

theorem posLoop_ok (hasSel : Bool) (n : ℕ) (st : St) (ps : List (V3 FVal))
    (ds : List (V3 Bool)) (st' : St)
    (h : posLoop hasSel n st = .ok ((ps, ds), st')) :
    ps.length = n ∧ ds.length = (if hasSel then n else 0) := by
  induction n generalizing st ps ds st' with
  | zero =>
    rw [posLoop] at h
    simp only [Except.ok.injEq, Prod.mk.injEq] at h
    obtain ⟨⟨h1, h2⟩, _⟩ := h
    subst h1 h2
    simp
  | succ n ih =>
    rw [posLoop] at h
    cases hl : linesNext st with
    | error e => rw [hl] at h; exact absurd h (by simp)
    | ok pr =>
      obtain ⟨line, st1⟩ := pr
      rw [hl] at h
      simp only [except_ok_bind] at h
      cases h3 : next3F line.line (wordsOf line) "expected 3 coordinates" with
      | error e => rw [h3] at h; exact absurd h (by simp)
      | ok pw =>
        obtain ⟨p, ws1⟩ := pw
        rw [h3] at h
        simp only [except_ok_bind] at h
        cases hasSel with
        | false =>
          simp only [Bool.false_eq_true, if_false] at h
          cases hr : posLoop false n st1 with
          | error e => rw [hr] at h; exact absurd h (by simp)
          | ok pr2 =>
            obtain ⟨⟨ps2, ds2⟩, st2⟩ := pr2
            rw [hr] at h
            simp only [except_ok_bind, Except.ok.injEq, Prod.mk.injEq] at h
            obtain ⟨⟨h1, h2⟩, _⟩ := h
            subst h1 h2
            have := ih st1 ps2 ds2 st2 hr
            simp only [Bool.false_eq_true, if_false, List.length_cons] at this ⊢
            omega
        | true =>
          simp only [if_true] at h
          cases hb : next3B line.line ws1 "expected 3 boolean flags" with
          | error e => rw [hb] at h; exact absurd h (by simp)
          | ok pb =>
            obtain ⟨d, ws2⟩ := pb
            rw [hb] at h
            simp only [except_ok_bind] at h
            cases hr : posLoop true n st1 with
            | error e => rw [hr] at h; exact absurd h (by simp)
            | ok pr2 =>
              obtain ⟨⟨ps2, ds2⟩, st2⟩ := pr2
              rw [hr] at h
              simp only [except_ok_bind, Except.ok.injEq, Prod.mk.injEq] at h
              obtain ⟨⟨h1, h2⟩, _⟩ := h
              subst h1 h2
              have := ih st1 ps2 ds2 st2 hr
              simp only [if_true, List.length_cons] at this ⊢
              omega

theorem parsePosBlock_ok (n : ℕ) (st : St) (pos : Coords)
    (dyn : Option (List (V3 Bool))) (st' : St)
    (h : parsePosBlock n st = .ok ((pos, dyn), st')) :
    pos.raw.length = n ∧ (∀ d, dyn = some d → d.length = n) := by
  rw [parsePosBlock] at h
  cases hl : linesNext st with
  | error e => rw [hl] at h; exact absurd h (by simp)
  | ok pr =>
    obtain ⟨line, st1⟩ := pr
    rw [hl] at h
    simp only [except_ok_bind] at h
    -- the selective-dynamics control-character match
    have main : ∀ (hasSel : Bool) (line2 : Sp) (st2 : St),
        ((do
          let hasDirect :=
            match classifyCoordLine line2.s with
            | .cartesian => false
            | _ => true
          let ((ps, ds), st3) ← posLoop hasSel n st2
          let positions := if hasDirect then Coords.frac ps else Coords.cart ps
          let dynamics := if hasSel then some ds else none
          .ok ((positions, dynamics), st3) : Except PErr ((Coords × Option (List (V3 Bool))) × St))
          = .ok ((pos, dyn), st')) →
        pos.raw.length = n ∧ (∀ d, dyn = some d → d.length = n) := by
      intro hasSel line2 st2 hh
      cases hr : posLoop hasSel n st2 with
      | error e => rw [hr] at hh; exact absurd hh (by simp)
      | ok pr2 =>
        obtain ⟨⟨ps, ds⟩, st3⟩ := pr2
        rw [hr] at hh
        simp only [except_ok_bind, Except.ok.injEq, Prod.mk.injEq] at hh
        obtain ⟨⟨h1, h2⟩, _⟩ := hh
        subst h1 h2
        obtain ⟨hp, hd⟩ := posLoop_ok hasSel n st2 ps ds st3 hr
        constructor
        · cases hcl : classifyCoordLine line2.s <;> simp [hcl, Coords.raw, hp]
        · intro d hdy
          cases hasSel with
          | false => simp at hdy
          | true =>
            obtain rfl : ds = d := by simpa using hdy
            simpa using hd
    by_cases hcond : controlChar line = some 's' ∨ controlChar line = some 'S'
    · rw [if_pos hcond] at h
      cases hl2 : linesNext st1 with
      | error e => rw [hl2] at h; exact absurd h (by simp)
      | ok pr2 =>
        obtain ⟨line2, st2⟩ := pr2
        rw [hl2] at h
        simp only [except_ok_bind, except_pure_eq_ok] at h
        exact main true line2 st2 h
    · rw [if_neg hcond] at h
      simp only [except_pure_eq_ok, except_ok_bind] at h
      exact main false line st1 h

theorem velLoop_ok (k : ℕ) (st : St) (vs : List (V3 FVal)) (st' : St)
    (h : velLoop k st = .ok (vs, st')) : vs.length = k := by
  induction k generalizing st vs st' with
  | zero =>
    rw [velLoop] at h
    simp only [Except.ok.injEq, Prod.mk.injEq] at h
    obtain ⟨h1, _⟩ := h
    subst h1
    rfl
  | succ k ih =>
    rw [velLoop] at h
    cases hl : linesNext st with
    | error e => rw [hl] at h; exact absurd h (by simp)
    | ok pr =>
      obtain ⟨line, st1⟩ := pr
      rw [hl] at h
      simp only [except_ok_bind] at h
      cases h3 : next3F line.line (wordsOf line) "expected 3 coordinates" with
      | error e => rw [h3] at h; exact absurd h (by simp)
      | ok pw =>
        obtain ⟨v, ws1⟩ := pw
        rw [h3] at h
        simp only [except_ok_bind] at h
        cases hr : velLoop k st1 with
        | error e => rw [hr] at h; exact absurd h (by simp)
        | ok pr2 =>
          obtain ⟨vs2, st2⟩ := pr2
          rw [hr] at h
          simp only [except_ok_bind, Except.ok.injEq, Prod.mk.injEq] at h
          obtain ⟨h1, _⟩ := h
          subst h1
          simp [ih st1 vs2 st2 hr]

theorem parseTail_ok (n : ℕ) (st : St) (vopt : Option Coords) (st' : St)
    (hn : 1 ≤ n) (h : parseTail n st = .ok (vopt, st')) :
    ∀ c, vopt = some c → c.raw.length = n := by
  intro c hc
  rw [parseTail] at h
  cases hl : linesNext st with
  | error e =>
    rw [hl] at h
    simp only [Except.ok.injEq, Prod.mk.injEq] at h
    obtain ⟨h1, _⟩ := h
    rw [← h1] at hc
    exact absurd hc (by simp)
  | ok pr =>
    obtain ⟨line, st1⟩ := pr
    rw [hl] at h
    -- the data branch is shared by every classification except the
    -- Possible-and-blank case
    have data : ∀ (hasDirect : Bool) (line2 : Sp) (st2 : St),
        ((do
          let (v1, _) ← next3F line2.line (wordsOf line2) "expected 3 coordinates"
          let (vs, st3) ← velLoop (n - 1) st2
          let velocities := if hasDirect then Coords.frac (v1 :: vs) else Coords.cart (v1 :: vs)
          .ok (some velocities, st3) : Except PErr (Option Coords × St))
          = .ok (vopt, st')) →
        c.raw.length = n := by
      intro hasDirect line2 st2 hh
      cases h3 : next3F line2.line (wordsOf line2) "expected 3 coordinates" with
      | error e => rw [h3] at hh; exact absurd hh (by simp)
      | ok pw =>
        obtain ⟨v1, ws1⟩ := pw
        rw [h3] at hh
        simp only [except_ok_bind] at hh
        cases hr : velLoop (n - 1) st2 with
        | error e => rw [hr] at hh; exact absurd hh (by simp)
        | ok pr2 =>
          obtain ⟨vs, st3⟩ := pr2
          rw [hr] at hh
          simp only [except_ok_bind, Except.ok.injEq, Prod.mk.injEq] at hh
          obtain ⟨h1, _⟩ := hh
          rw [← h1] at hc
          have hlen := velLoop_ok (n - 1) st2 vs st3 hr
          cases hasDirect <;>
            simp only [if_true, if_false, Bool.false_eq_true] at hc <;>
          · obtain rfl : _ = c := Option.some.inj hc
            simp [Coords.raw, hlen]
            omega
      -- end data
    cases hcl : classifyCoordLine line.s with
    | emptyOrWhitespace =>
      simp only [hcl] at h
      cases hl2 : linesNext st1 with
      | error e =>
        rw [hl2] at h
        simp only [Except.ok.injEq, Prod.mk.injEq] at h
        obtain ⟨h1, _⟩ := h
        rw [← h1] at hc
        exact absurd hc (by simp)
      | ok pr2 =>
        obtain ⟨line2, st2⟩ := pr2
        rw [hl2] at h
        cases ht : trimBoth line2.s with
        | nil =>
          simp only [ht] at h
          cases hb : expectBlankSt st2 with
          | error e => rw [hb] at h; exact absurd h (by simp)
          | ok st3 =>
            rw [hb] at h
            simp only [except_ok_bind, Except.ok.injEq, Prod.mk.injEq] at h
            obtain ⟨h1, _⟩ := h
            rw [← h1] at hc
            exact absurd hc (by simp)
        | cons a r =>
          simp only [ht] at h
          exact data true line2 st2 h
    | cartesian =>
      simp only [hcl] at h
      cases hl2 : linesNext st1 with
      | error e => rw [hl2] at h; exact absurd h (by simp)
      | ok pr2 =>
        obtain ⟨line2, st2⟩ := pr2
        rw [hl2] at h
        exact data false line2 st2 h
    | direct =>
      simp only [hcl] at h
      cases hl2 : linesNext st1 with
      | error e => rw [hl2] at h; exact absurd h (by simp)
      | ok pr2 =>
        obtain ⟨line2, st2⟩ := pr2
        rw [hl2] at h
        exact data true line2 st2 h
    | indentedText =>
      simp only [hcl] at h
      cases hl2 : linesNext st1 with
      | error e => rw [hl2] at h; exact absurd h (by simp)
      | ok pr2 =>
        obtain ⟨line2, st2⟩ := pr2
        rw [hl2] at h
        exact data true line2 st2 h
    | suspiciouslyDirect =>
      simp only [hcl] at h
      cases hl2 : linesNext st1 with
      | error e => rw [hl2] at h; exact absurd h (by simp)
      | ok pr2 =>
        obtain ⟨line2, st2⟩ := pr2
        rw [hl2] at h
        exact data true line2 st2 h

/-- C4.  Document length invariants: every document produced by a successful
parse satisfies `1 ≤ sum(counts)`, positions hold exactly `sum(counts)` rows,
dynamics and velocities (when present) have that same length, and the species
list (when present) is as long as the counts list. -/
theorem claim_C4_document_invariants (input : List (List Char)) (p : RawPoscar)
    (h : fromLines input = .ok p) :
    1 ≤ p.group_counts.sum ∧
    p.positions.raw.length = p.group_counts.sum ∧
    (∀ ds, p.dynamics = some ds → ds.length = p.group_counts.sum) ∧
    (∀ vs, p.velocities = some vs → vs.raw.length = p.group_counts.sum) ∧
    (∀ syms, p.group_symbols = some syms → syms.length = p.group_counts.length) := by
  rw [fromLines] at h
  cases h1 : linesNext ⟨0, input⟩ with
  | error e => rw [h1] at h; exact absurd h (by simp)
  | ok pr1 =>
    obtain ⟨commentSp, st1⟩ := pr1
    rw [h1] at h
    simp only [except_ok_bind] at h
    cases h2 : linesNext st1 with
    | error e => rw [h2] at h; exact absurd h (by simp)
    | ok pr2 =>
      obtain ⟨scaleSp, st2⟩ := pr2
      rw [h2] at h
      simp only [except_ok_bind] at h
      cases h3 : parseScale scaleSp with
      | error e => rw [h3] at h; exact absurd h (by simp)
      | ok scale =>
        rw [h3] at h
        simp only [except_ok_bind] at h
        cases h4 : parseLattice st2 with
        | error e => rw [h4] at h; exact absurd h (by simp)
        | ok pr4 =>
          obtain ⟨lat, st3⟩ := pr4
          rw [h4] at h
          simp only [except_ok_bind] at h
          cases h5 : parseSymCounts st3 with
          | error e => rw [h5] at h; exact absurd h (by simp)
          | ok pr5 =>
            obtain ⟨⟨syms, counts, n⟩, st4⟩ := pr5
            rw [h5] at h
            simp only [except_ok_bind] at h
            cases h6 : parsePosBlock n st4 with
            | error e => rw [h6] at h; exact absurd h (by simp)
            | ok pr6 =>
              obtain ⟨⟨positions, dynamics⟩, st5⟩ := pr6
              rw [h6] at h
              simp only [except_ok_bind] at h
              cases h7 : parseTail n st5 with
              | error e => rw [h7] at h; exact absurd h (by simp)
              | ok pr7 =>
                obtain ⟨velocities, st6⟩ := pr7
                rw [h7] at h
                simp only [except_ok_bind] at h
                cases h8 : expectBlankSt st6 with
                | error e => rw [h8] at h; exact absurd h (by simp)
                | ok st7 =>
                  rw [h8] at h
                  simp only [except_ok_bind, Except.ok.injEq] at h
                  subst h
                  obtain ⟨hn_eq, hn1, hsyms⟩ :=
                    parseSymCounts_ok st3 syms counts n st4 h5
                  obtain ⟨hpos, hdyn⟩ :=
                    parsePosBlock_ok n st4 positions dynamics st5 h6
                  have hvel := parseTail_ok n st5 velocities st6 hn1 h7
                  subst hn_eq
                  exact ⟨hn1, hpos, hdyn,
                    fun vs hvs => hvel vs hvs, hsyms⟩

/-- Witness for C4: the minimal document parses and satisfies the
invariants. -/
theorem claim_C4_document_invariants_witness :
    ∃ p : RawPoscar,
      fromLines (List.map String.data
        ["x", "1e0", "1 0 0", "0 1 0", "0 0 1", "1", "Direct", "0 0 0"]) = .ok p ∧
      1 ≤ p.group_counts.sum ∧ p.positions.raw.length = p.group_counts.sum := by
  refine ⟨⟨String.data "x", .factor (.num 1),
    ((.num 1, .num 0, .num 0), (.num 0, .num 1, .num 0), (.num 0, .num 0, .num 1)),
    none, [1], .frac [(.num 0, .num 0, .num 0)], none, none⟩, ?_, ?_, ?_⟩
  · decide
  · exact (claim_C4_document_invariants (List.map String.data
      ["x", "1e0", "1 0 0", "0 1 0", "0 0 1", "1", "Direct", "0 0 0"]) _ (by decide)).1
  · exact (claim_C4_document_invariants (List.map String.data
      ["x", "1e0", "1 0 0", "0 1 0", "0 0 1", "1", "Direct", "0 0 0"]) _ (by decide)).2.1

/-- Witness for C6: mismatched symbol/count lengths at a concrete input. -/
theorem claim_C6_species_counts_witness :
    parseSymCounts ⟨4, [String.data "Si", String.data "1 2"]⟩ =
      .error ⟨.generic "Inconsistent number of counts", some 5, some 0⟩ :=
  claim_C6_species_counts.1 4 (String.data "Si") (String.data "1 2") []
    (by decide) (by decide) (by decide) (by decide)

/-- Witness for C2: the three cases at concrete inputs. -/
theorem claim_C2_velocity_absence_witness :
    parseTail 3 ⟨7, []⟩ = .ok (none, ⟨7, []⟩) ∧
    parseTail 3 ⟨7, [String.data "  "]⟩ = .ok (none, ⟨8, []⟩) ∧
    parseTail 3 ⟨7, [String.data "", String.data " ", String.data "  x y"]⟩ =
      .error ⟨.generic "expected end of file", some 9, some 2⟩ :=
  ⟨claim_C2_velocity_absence.1 3 7,
   claim_C2_velocity_absence.2.1 3 7 (String.data "  ") (by decide),
   claim_C2_velocity_absence.2.2 3 7 (String.data "") (String.data " ") []
     (String.data "  x y") 2 (String.data "x") [(4, String.data "y")] []
     (by decide) (by decide) (by decide) (by decide)⟩

/-! ## Round trip of the written sections -/

theorem latticeRow_roundtrip (v : V3 FVal) (hfin : FinV3 v) :
    ∃ b, by3F v = some b ∧ ∀ cur rest,
      parseLatticeRow ⟨cur, (spaces 4 ++ b) :: rest⟩ =
        .ok (v, ⟨cur + 1, rest⟩) := by
  obtain ⟨sa, sb, sc', hb, hsa, hsb, hsc, hpa, hpb, hpc⟩ := by3F_spec v hfin
  refine ⟨sepBy [' '] [sa, sb, sc'], hb, ?_⟩
  intro cur rest
  rw [parseLatticeRow]
  simp only [linesNext, except_ok_bind]
  obtain ⟨r3, hn3, _⟩ := next3F_of_sps cur
    "expected three components for lattice vector" _ sa sb sc' []
    (wordsOf_plain_line cur 4 [sa, sb, sc']
      (by intro t htm; simp at htm; rcases htm with rfl | rfl | rfl <;>
        assumption)) v.1 v.2.1 v.2.2 hpa hpb hpc
  rw [show ((v.1, v.2.1, v.2.2) : V3 FVal) = v from rfl] at hn3
  rw [hn3]
  rfl

theorem parseLattice_roundtrip (lv : V3 (V3 FVal))
    (h : FinV3 lv.1 ∧ FinV3 lv.2.1 ∧ FinV3 lv.2.2) :
    ∃ ra rb rc, by3F lv.1 = some ra ∧ by3F lv.2.1 = some rb ∧
      by3F lv.2.2 = some rc ∧
      ∀ cur rest, parseLattice ⟨cur, (spaces 4 ++ ra) :: (spaces 4 ++ rb) ::
        (spaces 4 ++ rc) :: rest⟩ = .ok (lv, ⟨cur + 3, rest⟩) := by
  obtain ⟨ra, hra, hrowa⟩ := latticeRow_roundtrip lv.1 h.1
  obtain ⟨rb, hrb, hrowb⟩ := latticeRow_roundtrip lv.2.1 h.2.1
  obtain ⟨rc, hrc, hrowc⟩ := latticeRow_roundtrip lv.2.2 h.2.2
  refine ⟨ra, rb, rc, hra, hrb, hrc, ?_⟩
  intro cur rest
  rw [parseLattice,
    hrowa cur ((spaces 4 ++ rb) :: (spaces 4 ++ rc) :: rest)]
  simp only [except_ok_bind]
  rw [hrowb (cur + 1) ((spaces 4 ++ rc) :: rest)]
  simp only [except_ok_bind]
  rw [hrowc (cur + 1 + 1) rest]
  simp only [except_ok_bind]

theorem scaleLine_roundtrip (s : ScaleLine) (q : ℚ) (hv : s.val = .num q)
    (hq : 0 < q) (hfin : FinF s.val) :
    ∃ sl, writeScaleLine s = .ok sl ∧
      ∀ ln, parseScale ⟨ln, 0, sl⟩ = .ok s := by
  have h1 : ¬ (q < 0) := not_lt.mpr hq.le
  have h2 : ¬ (q = 0) := hq.ne'
  cases s with
  | factor x =>
    have hx : x = FVal.num q := hv
    obtain ⟨t, ht, hsolid, hparse, _⟩ := dtoaF_spec x hfin
    refine ⟨spaces 2 ++ t, by rw [writeScaleLine, ht]; rfl, ?_⟩
    intro ln
    have hws : (wordsOf ⟨ln, 0, spaces 2 ++ t⟩).map Sp.s = [t] :=
      wordsOf_plain_line ln 2 [t]
        (by intro u hu; simp at hu; subst hu; exact hsolid)
    obtain ⟨w, r0, hws_eq, hw_s, hr0⟩ := map_s_cons_destruct _ t [] hws
    have hr0nil : r0 = [] := map_s_nil_destruct r0 hr0
    subst hr0nil
    rw [parseScale, hws_eq]
    simp only [nextWordErr, except_ok_bind, spParseF64, hw_s, hparse, hx,
      FVal.cmp0, if_neg h1, if_neg h2]
    simp
  | volume x =>
    have hx : x = FVal.num q := hv
    obtain ⟨t, ht, hsolid, hparse, hneg⟩ := dtoaF_spec x hfin
    obtain ⟨hparse', hsolid'⟩ := hneg q hx hq.le
    refine ⟨spaces 2 ++ '-' :: t, by rw [writeScaleLine, ht]; rfl, ?_⟩
    intro ln
    have hws : (wordsOf ⟨ln, 0, spaces 2 ++ '-' :: t⟩).map Sp.s
        = ['-' :: t] :=
      wordsOf_plain_line ln 2 ['-' :: t]
        (by intro u hu; simp at hu; subst hu; exact hsolid')
    obtain ⟨w, r0, hws_eq, hw_s, hr0⟩ := map_s_cons_destruct _ ('-' :: t) [] hws
    have hr0nil : r0 = [] := map_s_nil_destruct r0 hr0
    subst hr0nil
    rw [parseScale, hws_eq]
    have hnq : -q < 0 := neg_lt_zero.mpr hq
    simp only [nextWordErr, except_ok_bind, spParseF64, hw_s, hparse', hx,
      FVal.cmp0, if_pos hnq, FVal.neg, neg_neg]
    simp

theorem writeVel_roundtrip (c : Coords) (n : ℕ) (hlen : c.raw.length = n)
    (hn : 1 ≤ n) (hfin : ∀ v ∈ c.raw, FinV3 v) :
    ∃ vlines, writeVelLines (some c) = .ok vlines ∧
      ∀ cur restL, parseTail n ⟨cur, vlines ++ restL⟩ =
        .ok (some c, ⟨cur + 1 + n, restL⟩) := by
  cases c with
  | cart vs =>
    obtain ⟨v1, vrest, rfl⟩ : ∃ v1 vrest, vs = v1 :: vrest := by
      cases vs with
      | nil => rw [Coords.raw] at hlen; simp at hlen; omega
      | cons v1 vrest => exact ⟨v1, vrest, rfl⟩
    rw [Coords.raw] at hlen hfin
    obtain ⟨sa, sb, sc', hb, hsa, hsb, hsc, hpa, hpb, hpc⟩ :=
      by3F_spec v1 (hfin v1 (by simp))
    obtain ⟨lls, hlls, _, hvel⟩ :=
      dataLines_loops vrest (fun u hu => hfin u (by simp [hu]))
    have hdl1 : dataLines (v1 :: vrest) none =
        .ok ((spaces 2 ++ sepBy [' '] [sa, sb, sc']) :: lls) := by
      rw [dataLines, hb, hlls]
      rfl
    refine ⟨String.data "Cartesian" ::
      (spaces 2 ++ sepBy [' '] [sa, sb, sc']) :: lls, ?_, ?_⟩
    · simp only [writeVelLines, Coords.raw, hdl1, except_ok_bind,
        except_pure_eq_ok]
    · intro cur restL
      have hcl : classifyCoordLine (String.data "Cartesian") = .cartesian := by
        decide
      rw [parseTail]
      simp only [List.cons_append, linesNext, hcl]
      cases htb : trimBoth (spaces 2 ++ sepBy [' '] [sa, sb, sc']) with
      | nil => exact absurd htb (trimBoth_ne_of_solid_head 2 sa hsa [sb, sc'])
      | cons c0 r0 =>
        try simp only [htb]
        obtain ⟨r3, hn3, _⟩ := next3F_of_sps (cur + 1)
          "expected 3 coordinates" _ sa sb sc' []
          (wordsOf_plain_line (cur + 1) 2 [sa, sb, sc']
            (by intro t htm; simp at htm; rcases htm with rfl | rfl | rfl <;>
              assumption)) v1.1 v1.2.1 v1.2.2 hpa hpb hpc
        rw [show ((v1.1, v1.2.1, v1.2.2) : V3 FVal) = v1 from rfl] at hn3
        rw [hn3]
        simp only [except_ok_bind]
        have hsub : n - 1 = vrest.length := by
          simp at hlen
          omega
        rw [hsub, hvel (cur + 1 + 1) restL]
        have harith : cur + 1 + 1 + vrest.length = cur + 1 + n := by
          simp at hlen
          omega
        simp [harith]
  | frac vs =>
    obtain ⟨v1, vrest, rfl⟩ : ∃ v1 vrest, vs = v1 :: vrest := by
      cases vs with
      | nil => rw [Coords.raw] at hlen; simp at hlen; omega
      | cons v1 vrest => exact ⟨v1, vrest, rfl⟩
    rw [Coords.raw] at hlen hfin
    obtain ⟨sa, sb, sc', hb, hsa, hsb, hsc, hpa, hpb, hpc⟩ :=
      by3F_spec v1 (hfin v1 (by simp))
    obtain ⟨lls, hlls, _, hvel⟩ :=
      dataLines_loops vrest (fun u hu => hfin u (by simp [hu]))
    have hdl1 : dataLines (v1 :: vrest) none =
        .ok ((spaces 2 ++ sepBy [' '] [sa, sb, sc']) :: lls) := by
      rw [dataLines, hb, hlls]
      rfl
    refine ⟨([] : List Char) ::
      (spaces 2 ++ sepBy [' '] [sa, sb, sc']) :: lls, ?_, ?_⟩
    · simp only [writeVelLines, Coords.raw, hdl1, except_ok_bind,
        except_pure_eq_ok]
    · intro cur restL
      have hcl : classifyCoordLine ([] : List Char) = .emptyOrWhitespace := by
        decide
      rw [parseTail]
      simp only [List.cons_append, linesNext, hcl]
      cases htb : trimBoth (spaces 2 ++ sepBy [' '] [sa, sb, sc']) with
      | nil => exact absurd htb (trimBoth_ne_of_solid_head 2 sa hsa [sb, sc'])
      | cons c0 r0 =>
        try simp only [htb]
        obtain ⟨r3, hn3, _⟩ := next3F_of_sps (cur + 1)
          "expected 3 coordinates" _ sa sb sc' []
          (wordsOf_plain_line (cur + 1) 2 [sa, sb, sc']
            (by intro t htm; simp at htm; rcases htm with rfl | rfl | rfl <;>
              assumption)) v1.1 v1.2.1 v1.2.2 hpa hpb hpc
        rw [show ((v1.1, v1.2.1, v1.2.2) : V3 FVal) = v1 from rfl] at hn3
        rw [hn3]
        simp only [except_ok_bind]
        have hsub : n - 1 = vrest.length := by
          simp at hlen
          omega
        rw [hsub, hvel (cur + 1 + 1) restL]
        have harith : cur + 1 + 1 + vrest.length = cur + 1 + n := by
          simp at hlen
          omega
        simp [harith]

theorem symCountsSection_roundtrip (gs : Option (List (List Char)))
    (counts : List ℕ)
    (hval : ∀ syms, gs = some syms → ∀ s ∈ syms, isValidSymbol s = true)
    (hlen : ∀ syms, gs = some syms → syms.length = counts.length)
    (hlt : ∀ c ∈ counts, c < 2 ^ 64)
    (hne : counts ≠ [])
    (hsum : counts.sum ≠ 0) :
    ∀ cur rest, parseSymCounts ⟨cur,
      (writeSymLines gs ++ writeCountsLine counts :: rest)⟩ =
      .ok ((gs, counts, counts.sum),
        ⟨cur + (match gs with | some _ => 2 | none => 1), rest⟩) := by
  intro cur rest
  rw [writeCountsLine]
  obtain ⟨c0, cts, hc0⟩ : ∃ a l, counts = a :: l := by
    cases counts with
    | nil => exact absurd rfl hne
    | cons a l => exact ⟨a, l, rfl⟩
  -- the printed counts line and its tokens
  have hcmap : ∀ ln, (wordsOf ⟨ln, 0, spaces 2 ++ sepBy [' ']
      (counts.map (fun c => padLeft2 (natChars c)))⟩).map Sp.s =
      counts.map natChars := by
    intro ln
    have hmm : counts.map (fun c => padLeft2 (natChars c)) =
        (counts.map natChars).map padLeft2 := by
      rw [List.map_map]
      rfl
    rw [hmm]
    exact wordsOf_pads_line ln 2 _ _ (forall₂_padLeft2 (counts.map natChars))
      (by
        intro t ht
        simp only [List.mem_map] at ht
        obtain ⟨c, _, rfl⟩ := ht
        exact natChars_solid c)
  have hpc : ∀ ln, parseCounts (wordsOf ⟨ln, 0, spaces 2 ++ sepBy [' ']
      (counts.map (fun c => padLeft2 (natChars c)))⟩) = counts :=
    fun ln => parseCounts_printed _ counts (hcmap ln) hlt
  cases gs with
  | none =>
    -- the counts line is also the first line; its head is a digit
    obtain ⟨d0, drest, hd0⟩ : ∃ a l, natChars c0 = a :: l := by
      cases hx : natChars c0 with
      | nil => exact absurd hx (natChars_ne_nil c0)
      | cons a l => exact ⟨a, l, rfl⟩
    have hd0dig : isDigitC d0 = true :=
      natChars_digits c0 d0 (by rw [hd0]; simp)
    have hd0ws : isWs d0 = false :=
      (natChars_solid c0).2 d0 (by rw [hd0]; simp)
    obtain ⟨tail0, htail⟩ : ∃ tl, sepBy [' ']
        (counts.map (fun c => padLeft2 (natChars c))) =
        padLeft2 (natChars c0) ++ tl := by
      rw [hc0, List.map_cons]
      cases hm : cts.map (fun c => padLeft2 (natChars c)) with
      | nil => exact ⟨[], by simp [sepBy]⟩
      | cons a l =>
        refine ⟨' ' :: sepBy [' '] (a :: l), ?_⟩
        rw [sepBy_cons₂ _ _ _ (by simp)]
        simp [List.append_assoc]
    have hline : spaces 2 ++ sepBy [' ']
        (counts.map (fun c => padLeft2 (natChars c))) =
        (spaces 2 ++ spaces (2 - (natChars c0).length)) ++
          (d0 :: (drest ++ tail0)) := by
      rw [htail, padLeft2, hd0]
      simp [List.append_assoc]
    have hheadD : (trimBoth (spaces 2 ++ sepBy [' ']
        (counts.map (fun c => padLeft2 (natChars c))))).headD ' ' = d0 := by
      rw [hline]
      exact trimBoth_headD _ (by
        intro c hc
        rw [List.mem_append] at hc
        rcases hc with hc | hc
        · exact spaces_ws 2 c hc
        · exact spaces_ws _ c hc) d0 hd0ws _
    rw [parseSymCounts]
    simp only [writeSymLines, List.nil_append, linesNext, except_ok_bind]
    cases hw : wordsOf ⟨cur, 0, spaces 2 ++ sepBy [' ']
        (counts.map (fun c => padLeft2 (natChars c)))⟩ with
    | nil =>
      have := hcmap cur
      rw [hw] at this
      rw [hc0] at this
      simp at this
    | cons w ws =>
      simp only [nextWordErr, except_ok_bind, hheadD, hd0dig, if_true,
        except_pure_eq_ok, hpc cur, checkSyms]
      rw [if_neg hsum]
  | some syms =>
    obtain ⟨s1, syms', hs1⟩ : ∃ a l, syms = a :: l := by
      cases syms with
      | nil =>
        have h0 := hlen [] rfl
        rw [hc0] at h0
        simp at h0
      | cons a l => exact ⟨a, l, rfl⟩
    have hs1v : isValidSymbol s1 = true :=
      hval syms rfl s1 (by rw [hs1]; simp)
    obtain ⟨c1, s1t, hc1⟩ : ∃ c l, s1 = c :: l := by
      cases hx : s1 with
      | nil => rw [hx, isValidSymbol] at hs1v; exact absurd hs1v (by simp)
      | cons c l => exact ⟨c, l, rfl⟩
    have hsolid1 : Solid s1 := isValidSymbol_solid s1 hs1v
    have hc1ws : isWs c1 = false := hsolid1.2 c1 (by rw [hc1]; simp)
    have hdigc1 : isDigitC c1 = false := by
      rw [hc1, isValidSymbol, Bool.and_eq_true] at hs1v
      simpa using hs1v.2
    obtain ⟨tail0, htail⟩ : ∃ tl, sepBy [' '] (syms.map padLeft2) =
        padLeft2 s1 ++ tl := by
      rw [hs1, List.map_cons]
      cases hm : syms'.map padLeft2 with
      | nil => exact ⟨[], by simp [sepBy]⟩
      | cons a l =>
        refine ⟨' ' :: sepBy [' '] (a :: l), ?_⟩
        rw [sepBy_cons₂ _ _ _ (by simp)]
        simp [List.append_assoc]
    have hline : spaces 2 ++ sepBy [' '] (syms.map padLeft2) =
        (spaces 2 ++ spaces (2 - s1.length)) ++ (c1 :: (s1t ++ tail0)) := by
      rw [htail, padLeft2, hc1]
      simp [List.append_assoc]
    have hheadD : (trimBoth (spaces 2 ++
        sepBy [' '] (syms.map padLeft2))).headD ' ' = c1 := by
      rw [hline]
      exact trimBoth_headD _ (by
        intro c hc
        rw [List.mem_append] at hc
        rcases hc with hc | hc
        · exact spaces_ws 2 c hc
        · exact spaces_ws _ c hc) c1 hc1ws _
    have hwmap : (wordsOf ⟨cur, 0,
        spaces 2 ++ sepBy [' '] (syms.map padLeft2)⟩).map Sp.s = syms :=
      wordsOf_pads_line cur 2 _ _ (forall₂_padLeft2 syms)
        (fun t ht => isValidSymbol_solid t (hval syms rfl t ht))
    rw [parseSymCounts]
    simp only [writeSymLines, List.cons_append, List.nil_append, linesNext,
      except_ok_bind]
    cases hw : wordsOf ⟨cur, 0, spaces 2 ++ sepBy [' '] (syms.map padLeft2)⟩ with
    | nil =>
      rw [hw] at hwmap
      rw [hs1] at hwmap
      simp at hwmap
    | cons w ws =>
      rw [hw] at hwmap
      have hv2 : ∀ u ∈ (w :: ws), isValidSymbol u.s = true := by
        intro u hu
        have hmem : u.s ∈ (w :: ws).map Sp.s := List.mem_map_of_mem Sp.s hu
        rw [hwmap] at hmem
        exact hval syms rfl u.s hmem
      have hmapM := mapM_valid_symbols (w :: ws) hv2
      simp only [except_pure_eq_ok] at hmapM
      have hlen' : syms.length = counts.length := hlen syms rfl
      simp only [nextWordErr, except_ok_bind, hheadD, hdigc1,
        Bool.false_eq_true, if_false, hmapM, hwmap, linesNext,
        except_pure_eq_ok, except_ok_bind, hpc (cur + 1), checkSyms]
      rw [if_neg (by simp [hlen'] : ¬ syms.length ≠ counts.length)]
      simp only [except_ok_bind]
      rw [if_neg hsum]

theorem posBlockSection_roundtrip (pos : Coords) (dyn : Option (List (V3 Bool)))
    (n : ℕ) (hlen : pos.raw.length = n) (hfin : ∀ v ∈ pos.raw, FinV3 v)
    (hdl : ∀ ds, dyn = some ds → ds.length = n) :
    ∃ dls, dataLines pos.raw dyn = .ok dls ∧
      ∀ cur restL, parsePosBlock n ⟨cur,
        writeSelLines dyn ++ writeHeaderLine pos :: (dls ++ restL)⟩ =
        .ok ((pos, dyn),
          ⟨cur + (match dyn with | some _ => 1 | none => 0) + 1 + n, restL⟩) := by
  have hclC : classifyCoordLine (String.data "Cartesian") = .cartesian := by
    decide
  have hclD : classifyCoordLine (String.data "Direct") = .direct := by
    decide
  cases dyn with
  | none =>
    obtain ⟨dls, hdls, hposLoop, _⟩ := dataLines_loops pos.raw hfin
    refine ⟨dls, hdls, ?_⟩
    intro cur restL
    cases pos with
    | cart vs =>
      rw [Coords.raw] at hlen hposLoop
      subst hlen
      have hcc : controlChar (⟨cur, 0, String.data "Cartesian"⟩ : Sp) =
          some 'C' := rfl
      have hcond : ¬ (controlChar (⟨cur, 0, String.data "Cartesian"⟩ : Sp) =
          some 's' ∨ controlChar (⟨cur, 0, String.data "Cartesian"⟩ : Sp) =
          some 'S') := by
        rw [hcc]
        decide
      rw [parsePosBlock]
      simp only [writeSelLines, writeHeaderLine, List.nil_append,
        List.cons_append, linesNext, except_ok_bind]
      rw [if_neg hcond]
      simp only [except_pure_eq_ok, except_ok_bind, hclC]
      rw [hposLoop (cur + 1) restL]
      simp +arith
    | frac vs =>
      rw [Coords.raw] at hlen hposLoop
      subst hlen
      have hcc : controlChar (⟨cur, 0, String.data "Direct"⟩ : Sp) =
          some 'D' := rfl
      have hcond : ¬ (controlChar (⟨cur, 0, String.data "Direct"⟩ : Sp) =
          some 's' ∨ controlChar (⟨cur, 0, String.data "Direct"⟩ : Sp) =
          some 'S') := by
        rw [hcc]
        decide
      rw [parsePosBlock]
      simp only [writeSelLines, writeHeaderLine, List.nil_append,
        List.cons_append, linesNext, except_ok_bind]
      rw [if_neg hcond]
      simp only [except_pure_eq_ok, except_ok_bind, hclD]
      rw [hposLoop (cur + 1) restL]
      simp +arith
  | some ds =>
    have hds : ds.length = pos.raw.length := by
      rw [hdl ds rfl, hlen]
    obtain ⟨dls, hdls, hposLoop⟩ :=
      dataLines_posLoop_some pos.raw ds hfin hds
    refine ⟨dls, hdls, ?_⟩
    intro cur restL
    have hccS : controlChar (⟨cur, 0, String.data "Selective Dynamics"⟩ : Sp) =
        some 'S' := rfl
    cases pos with
    | cart vs =>
      rw [Coords.raw] at hlen hposLoop
      subst hlen
      rw [parsePosBlock]
      simp only [writeSelLines, writeHeaderLine, List.cons_append,
        List.nil_append, linesNext, except_ok_bind]
      rw [if_pos (Or.inr hccS)]
      simp only [linesNext, except_ok_bind, except_pure_eq_ok, hclC]
      rw [hposLoop (cur + 1 + 1) restL]
      simp +arith
    | frac vs =>
      rw [Coords.raw] at hlen hposLoop
      subst hlen
      rw [parsePosBlock]
      simp only [writeSelLines, writeHeaderLine, List.cons_append,
        List.nil_append, linesNext, except_ok_bind]
      rw [if_pos (Or.inr hccS)]
      simp only [linesNext, except_ok_bind, except_pure_eq_ok, hclD]
      rw [hposLoop (cur + 1 + 1) restL]
      simp +arith

theorem velSection_roundtrip (vel : Option Coords) (n : ℕ) (hn : 1 ≤ n)
    (hlen : ∀ c, vel = some c → c.raw.length = n)
    (hfin : ∀ c, vel = some c → ∀ v ∈ c.raw, FinV3 v) :
    ∃ velLs, writeVelLines vel = .ok velLs ∧
      ∀ cur, parseTail n ⟨cur, velLs⟩ =
        .ok (vel, ⟨cur + (match vel with | some _ => 1 + n | none => 0), []⟩) := by
  cases vel with
  | none =>
    refine ⟨[], rfl, ?_⟩
    intro cur
    rw [parseTail]
    simp [linesNext]
  | some c =>
    obtain ⟨vlines, hw, hp⟩ :=
      writeVel_roundtrip c n (hlen c rfl) hn (hfin c rfl)
    refine ⟨vlines, hw, ?_⟩
    intro cur
    have := hp cur []
    rw [List.append_nil] at this
    rw [this]
    simp +arith

/-- Writing a valid document succeeds and re-parsing its output recovers the
document exactly. -/
theorem roundtrip_main (p : RawPoscar) (h : DocValid p) :
    ∃ ls, to_writer p = .ok ls ∧ fromLines ls = .ok p := by
  obtain ⟨q, hq, hqpos⟩ := h.scale_num
  obtain ⟨sl, hwscale, hpscale⟩ :=
    scaleLine_roundtrip p.scale q hq hqpos h.scale_fin
  obtain ⟨ra, rb, rc, hra, hrb, hrc, hplat⟩ :=
    parseLattice_roundtrip p.lattice_vectors h.lat_fin
  have hsum : p.group_counts.sum ≠ 0 := by
    have := h.n_pos
    omega
  have hsc := symCountsSection_roundtrip p.group_symbols p.group_counts
    h.syms_valid h.syms_len h.counts_lt h.counts_ne hsum
  obtain ⟨dls, hdls, hppos⟩ := posBlockSection_roundtrip p.positions p.dynamics
    p.group_counts.sum h.pos_len h.pos_fin h.dyn_len
  obtain ⟨velLs, hwvel, hpvel⟩ := velSection_roundtrip p.velocities
    p.group_counts.sum h.n_pos h.vel_len h.vel_fin
  have hcnl : p.comment.contains '\n' = false := by
    simpa using h.comment_nl
  have hccr : p.comment.contains '\r' = false := by
    simpa using h.comment_cr
  refine ⟨[p.comment, sl, spaces 4 ++ ra, spaces 4 ++ rb, spaces 4 ++ rc]
    ++ writeSymLines p.group_symbols ++ [writeCountsLine p.group_counts]
    ++ writeSelLines p.dynamics ++ [writeHeaderLine p.positions]
    ++ dls ++ velLs, ?_, ?_⟩
  · rw [to_writer]
    rcases hlv : p.lattice_vectors with ⟨la, lb, lc⟩
    rw [hlv] at hra hrb hrc
    simp only [] at hra hrb hrc
    simp only [hcnl, hccr, Bool.false_eq_true, if_false, except_pure_eq_ok,
      except_ok_bind, hwscale, hra, hrb, hrc, liftO, hdls, hwvel]
    rw [if_neg h.counts_ne]
  · rw [fromLines]
    simp only [List.append_assoc, List.cons_append, List.nil_append,
      linesNext, except_ok_bind]
    rw [hpscale]
    simp only [except_ok_bind]
    rw [hplat]
    simp only [except_ok_bind]
    rw [hsc]
    simp only [except_ok_bind]
    rw [hppos]
    simp only [except_ok_bind]
    rw [hpvel]
    simp only [except_ok_bind]
    rw [expectBlankSt]
    simp only [expectBlank, except_ok_bind, except_pure_eq_ok]

/-- C1.  Round-trip stability: every document satisfying the Document
invariants (`DocValid`, modelled from §3 of the spec) is written successfully
by `to_writer`, and re-parsing the written lines with `fromLines` yields a
document structurally equal to the original — equality of comment, scale,
lattice vectors, species, counts, coordinate tags, positions, dynamics flags
and velocities, not byte-identity of the text. -/
theorem claim_C1_roundtrip (p : RawPoscar) (h : DocValid p) :
    ∃ ls, to_writer p = .ok ls ∧ fromLines ls = .ok p :=
  roundtrip_main p h

/-- C9.  Writer totality: on every document satisfying the Document
invariants of §3 the writer produces its output lines without failing — the
modelled failure sources (the comment and counts assertions, the
`dynamics[i]` indexing, `dtoa` on a non-finite float) are all unreachable —
so the only possible failure of a real `write` call is an I/O error of the
sink, which the line-list model has no counterpart of. -/
theorem claim_C9_writer_totality (p : RawPoscar) (h : DocValid p) :
    ∃ ls, to_writer p = .ok ls := by
  obtain ⟨ls, hw, _⟩ := roundtrip_main p h
  exact ⟨ls, hw⟩

/-- The minimal valid document satisfies the Document invariants. -/
theorem docValid_example :
    DocValid ⟨String.data "x", .factor (.num 1),
      ((.num 1, .num 0, .num 0), (.num 0, .num 1, .num 0),
        (.num 0, .num 0, .num 1)),
      none, [1], .frac [(.num 0, .num 0, .num 0)], none, none⟩ := by
  have f1 : FinF (.num 1) := ⟨1, 0, by norm_num⟩
  have f0 : FinF (.num 0) := ⟨0, 0, by norm_num⟩
  refine ⟨by decide, by decide, ⟨1, rfl, by norm_num⟩, f1,
    ⟨⟨f1, f0, f0⟩, ⟨f0, f1, f0⟩, ⟨f0, f0, f1⟩⟩,
    ?_, ?_, by decide, by decide, by decide, by decide, ?_, ?_, ?_, ?_⟩
  · intro syms hs
    exact Option.noConfusion hs
  · intro syms hs
    exact Option.noConfusion hs
  · intro v hv
    simp only [Coords.raw, List.mem_singleton] at hv
    subst hv
    exact ⟨f0, f0, f0⟩
  · intro ds hds
    exact Option.noConfusion hds
  · intro vs hvs
    exact Option.noConfusion hvs
  · intro vs hvs
    exact Option.noConfusion hvs

/-- A richer valid document — species symbols, selective dynamics, Cartesian
positions, fractional velocities and non-integer coordinates — satisfies the
Document invariants. -/
theorem docValid_rich :
    DocValid ⟨String.data "cubic", .volume (.num 27),
      ((.num (1/2), .num 0, .num 0), (.num 0, .num 1, .num 0),
        (.num 0, .num 0, .num (3/2))),
      some [String.data "Si", String.data "O"], [1, 1],
      .cart [(.num (1/4), .num 0, .num 0), (.num 0, .num (1/4), .num 0)],
      some [(true, false, true), (false, true, true)],
      some (.frac [(.num 0, .num (-1/2), .num 1), (.num 1, .num 0, .num 0)])⟩ := by
  have f1 : FinF (.num 1) := ⟨1, 0, by norm_num⟩
  have f0 : FinF (.num 0) := ⟨0, 0, by norm_num⟩
  have fh : FinF (.num (1/2)) := ⟨5, 1, by norm_num⟩
  have fnh : FinF (.num (-1/2)) := ⟨-5, 1, by norm_num⟩
  have f32 : FinF (.num (3/2)) := ⟨15, 1, by norm_num⟩
  have fq : FinF (.num (1/4)) := ⟨25, 2, by norm_num⟩
  have f27 : FinF (.num 27) := ⟨27, 0, by norm_num⟩
  refine ⟨by decide, by decide, ⟨27, by rfl, by norm_num⟩, f27,
    ⟨⟨fh, f0, f0⟩, ⟨f0, f1, f0⟩, ⟨f0, f0, f32⟩⟩,
    ?_, ?_, by decide, by decide, by decide, by decide, ?_, ?_, ?_, ?_⟩
  · intro syms hs
    obtain rfl : [String.data "Si", String.data "O"] = syms :=
      Option.some.inj hs
    decide
  · intro syms hs
    obtain rfl : [String.data "Si", String.data "O"] = syms :=
      Option.some.inj hs
    decide
  · intro v hv
    simp only [Coords.raw, List.mem_cons, List.not_mem_nil, or_false] at hv
    rcases hv with rfl | rfl
    · exact ⟨fq, f0, f0⟩
    · exact ⟨f0, fq, f0⟩
  · intro ds hds
    obtain rfl : [((true, false, true) : V3 Bool), (false, true, true)] = ds :=
      Option.some.inj hds
    decide
  · intro vs hvs
    obtain rfl : Coords.frac [(.num 0, .num (-1/2), .num 1),
        (.num 1, .num 0, .num 0)] = vs := Option.some.inj hvs
    decide
  · intro vs hvs
    obtain rfl : Coords.frac [(.num 0, .num (-1/2), .num 1),
        (.num 1, .num 0, .num 0)] = vs := Option.some.inj hvs
    intro v hv
    simp only [Coords.raw, List.mem_cons, List.not_mem_nil, or_false] at hv
    rcases hv with rfl | rfl
    · exact ⟨f0, fnh, f1⟩
    · exact ⟨f1, f0, f0⟩

/-- Witness for C1: the round trip at a concrete document with species,
selective dynamics and fractional velocities. -/
theorem claim_C1_roundtrip_witness :
    ∃ ls, to_writer ⟨String.data "cubic", .volume (.num 27),
      ((.num (1/2), .num 0, .num 0), (.num 0, .num 1, .num 0),
        (.num 0, .num 0, .num (3/2))),
      some [String.data "Si", String.data "O"], [1, 1],
      .cart [(.num (1/4), .num 0, .num 0), (.num 0, .num (1/4), .num 0)],
      some [(true, false, true), (false, true, true)],
      some (.frac [(.num 0, .num (-1/2), .num 1), (.num 1, .num 0, .num 0)])⟩
        = .ok ls ∧
      fromLines ls = .ok ⟨String.data "cubic", .volume (.num 27),
        ((.num (1/2), .num 0, .num 0), (.num 0, .num 1, .num 0),
          (.num 0, .num 0, .num (3/2))),
        some [String.data "Si", String.data "O"], [1, 1],
        .cart [(.num (1/4), .num 0, .num 0), (.num 0, .num (1/4), .num 0)],
        some [(true, false, true), (false, true, true)],
        some (.frac [(.num 0, .num (-1/2), .num 1), (.num 1, .num 0, .num 0)])⟩ :=
  claim_C1_roundtrip _ docValid_rich

/-- Witness for C9: the writer succeeds on the minimal valid document. -/
theorem claim_C9_writer_totality_witness :
    ∃ ls, to_writer ⟨String.data "x", .factor (.num 1),
      ((.num 1, .num 0, .num 0), (.num 0, .num 1, .num 0),
        (.num 0, .num 0, .num 1)),
      none, [1], .frac [(.num 0, .num 0, .num 0)], none, none⟩ = .ok ls :=
  claim_C9_writer_totality _ docValid_example

end Poscar
